import Mathlib

/-!
# A shallow embedding of the hzr compression library (hzr_encode.c / hzr_decode.c)

This file models, in Lean 4, the C sources of the hzr Huffman + RLE
compression codec: the bit-level read/write streams, Huffman tree
construction and (de)serialization, block framing, the encoder entry points
(`hzr_max_compressed_size`, `hzr_encode`) and the decoder entry points
(`hzr_verify`, `hzr_decode`).  Buffers are modelled as `List Nat` of byte
values; machine integers are modelled as `Nat` with explicit `% 2^32`
truncation exactly where the C `uint32_t` arithmetic can overflow.  Reads
out of range (undefined behaviour in C) are modelled as reading 0 via
`List.getD`; theorems about out-of-range accesses are stated through
explicit source-range functions.
-/

set_option maxRecDepth 10000
set_option linter.unusedVariables false

deriving instance DecidableEq for Except

namespace Hzr

/-! ## Constants from hzr_internal.h -/

def HZR_HEADER_SIZE : Nat := 4
def HZR_BLOCK_HEADER_SIZE : Nat := 7
def HZR_ENCODING_COPY : Nat := 0
def HZR_ENCODING_HUFF_RLE : Nat := 1
def HZR_ENCODING_FILL : Nat := 2
def HZR_ENCODING_LAST : Nat := HZR_ENCODING_FILL
def HZR_MAX_BLOCK_SIZE : Nat := 65536
def kSymbolSize : Nat := 9
def kNumSymbols : Nat := 261
def kSymTwoZeros : Nat := 256
def kSymUpTo6Zeros : Nat := 257
def kSymUpTo22Zeros : Nat := 258
def kSymUpTo278Zeros : Nat := 259
def kSymUpTo16662Zeros : Nat := 260
/-- `kMaxTreeNodes = (kNumSymbols * 2) - 1 = 521`. -/
def kMaxTreeNodes : Nat := kNumSymbols * 2 - 1

/-- hzr_status_t: HZR_FAIL = 0, HZR_OK = 1. -/
inductive hzr_status where
  | HZR_FAIL : hzr_status
  | HZR_OK : hzr_status
deriving Repr, DecidableEq

export hzr_status (HZR_FAIL HZR_OK)

/-! ## CRC32C

Modelled from the spec: the scalar table-driven `_hzr_crc32` implementation
is declared in `hzr_crc32.h` but its definition is not among the source
files; per the spec (section 4.2) it computes CRC32C (Castagnoli
polynomial 0x1EDC6F41, reflected, xor-in/xor-out 0xFFFFFFFF).  We use the
standard bitwise reflected formulation (reflected polynomial 0x82F63B78),
which the SIMD variants in the sources (`_mm_crc32_u8` etc.) are bit-exact
with. -/

/-- One bit step of the reflected CRC32C update. -/
def crc32cBitStep (crc : Nat) : Nat :=
  if crc % 2 = 1 then (crc >>> 1) ^^^ 0x82F63B78 else crc >>> 1

/-- Modelled from the spec: update the CRC with one input byte. -/
def crc32cByteStep (crc b : Nat) : Nat :=
  (crc32cBitStep ∘ crc32cBitStep ∘ crc32cBitStep ∘ crc32cBitStep ∘
   crc32cBitStep ∘ crc32cBitStep ∘ crc32cBitStep ∘ crc32cBitStep)
    (crc ^^^ (b % 256))

/-- Modelled from the spec: `_hzr_crc32` over a byte list (CRC32C,
xor-in and xor-out `0xFFFFFFFF`). -/
def _hzr_crc32 (data : List Nat) : Nat :=
  (data.foldl crc32cByteStep 0xFFFFFFFF) ^^^ 0xFFFFFFFF

/-! ## ReadStream (hzr_decode.c)

The C `ReadStream` stores `byte_ptr` and `end_ptr` as pointers into the
input buffer; we carry the buffer and represent both as byte indices. -/

/-- Read a byte from the buffer.  An out-of-range read is undefined
behaviour in C; the model returns 0. -/
def byteAt (buf : List Nat) (i : Nat) : Nat := buf.getD i 0

structure ReadStream where
  buf : List Nat
  pos : Nat
  endPos : Nat
  bit_pos : Nat
  bit_cache : Nat
  read_failed : Bool
deriving Repr, DecidableEq

/-- Little-endian cache fill: `n` bytes starting at `pos`
(`bit_cache |= byte[i] << (8*i)`). -/
def prefillCache (buf : List Nat) (pos n : Nat) : Nat :=
  (List.range n).foldl (fun c i => c ||| (byteAt buf (pos + i) <<< (8 * i))) 0

/-- InitReadStream: the pre-fill loop reads `min 4 size` bytes. -/
def InitReadStream (buf : List Nat) (size : Nat) : ReadStream :=
  { buf := buf, pos := 0, endPos := size, bit_pos := 0,
    bit_cache := prefillCache buf 0 (min 4 size), read_failed := false }

/-- ReInitBitCache: fails unless the position is byte aligned, then
re-reads `min 4 bytes_left` bytes.  (When `byte_ptr > end_ptr` — only
reachable after an out-of-range COPY — the C pointer difference is
negative; the model's truncated subtraction reads 0 bytes.) -/
def ReInitBitCache (s : ReadStream) : ReadStream :=
  if s.bit_pos ≠ 0 then { s with read_failed := true }
  else { s with bit_cache := prefillCache s.buf s.pos (min 4 (s.endPos - s.pos)) }

/-- CopyReadState: copy the read state without altering the end pointer. -/
def CopyReadState (s src : ReadStream) : ReadStream :=
  { s with
    pos := src.pos
    bit_pos := src.bit_pos
    bit_cache := src.bit_cache
    read_failed := src.read_failed }

/-- GetBytePtr: `byte_ptr + (bit_pos >> 3)` as an index. -/
def ReadStream.bytePtr (s : ReadStream) : Nat := s.pos + (s.bit_pos >>> 3)

/-- The loop body count of the cache-update loops is `bit_pos / 8`; the
loops are given the structurally decreasing fuel `bit_pos`, which always
suffices, so the fuel-exhausted branch is unreachable. -/
def UpdateBitCacheAux : Nat → ReadStream → ReadStream
  | 0, s => s
  | fuel + 1, s =>
    if 8 ≤ s.bit_pos then
      UpdateBitCacheAux fuel
        { s with
          bit_cache := (s.bit_cache >>> 8) ||| (byteAt s.buf (s.pos + 4) <<< 24)
          bit_pos := s.bit_pos - 8
          pos := s.pos + 1 }
    else s

/-- UpdateBitCache (unchecked fast variant): shifts the next byte(s) in,
reading `byte_ptr[4]` without a bounds guard. -/
def UpdateBitCache (s : ReadStream) : ReadStream := UpdateBitCacheAux s.bit_pos s

def UpdateBitCacheSafeAux : Nat → ReadStream → ReadStream
  | 0, s => s
  | fuel + 1, s =>
    if 8 ≤ s.bit_pos then
      UpdateBitCacheSafeAux fuel
        { s with
          bit_cache := (s.bit_cache >>> 8) |||
            (if s.pos + 4 < s.endPos then byteAt s.buf (s.pos + 4) <<< 24 else 0)
          bit_pos := s.bit_pos - 8
          pos := s.pos + 1 }
    else s

/-- UpdateBitCacheSafe: as UpdateBitCache, but the source read of
`byte_ptr[4]` is guarded by `byte_ptr + 4 < end_ptr`. -/
def UpdateBitCacheSafe (s : ReadStream) : ReadStream :=
  UpdateBitCacheSafeAux s.bit_pos s

/-- ReadBit (unchecked). -/
def ReadBit (s : ReadStream) : Nat × ReadStream :=
  let x := (s.bit_cache >>> s.bit_pos) &&& 1
  (x, UpdateBitCache { s with bit_pos := s.bit_pos + 1 })

/-- ReadBitChecked: fails (returning 0, without advancing) iff
`byte_ptr >= end_ptr`. -/
def ReadBitChecked (s : ReadStream) : Nat × ReadStream :=
  if s.endPos ≤ s.pos then
    (0, { s with read_failed := true })
  else
    let x := (s.bit_cache >>> s.bit_pos) &&& 1
    (x, UpdateBitCacheSafe { s with bit_pos := s.bit_pos + 1 })

/-- `s_bits_mask[n] = 2^n - 1` for `n ∈ [0, 32]` (the table entry at index
0 is 0 = 2^0 - 1; indices above 32 are never used). -/
def s_bits_mask (n : Nat) : Nat := 2 ^ n - 1

/-- ReadBits (unchecked): up to two cache-refill rounds. -/
def ReadBits (s : ReadStream) (bits : Nat) : Nat × ReadStream :=
  let bits_to_read := min (32 - s.bit_pos) bits
  let x := (s.bit_cache >>> s.bit_pos) &&& s_bits_mask bits_to_read
  let s1 := UpdateBitCache { s with bit_pos := s.bit_pos + bits_to_read }
  let rem := bits - bits_to_read
  if 0 < rem then
    let x := x ||| ((s1.bit_cache &&& s_bits_mask rem) <<< bits_to_read)
    (x, UpdateBitCache { s1 with bit_pos := s1.bit_pos + rem })
  else
    (x, s1)

/-- ReadBitsChecked: computes the projected position and fails (returning
0, without advancing) when it passes the end, or lands on the end
mid-byte. -/
def ReadBitsChecked (s : ReadStream) (bits : Nat) : Nat × ReadStream :=
  let new_bit_pos := s.bit_pos + bits
  let new_byte_pos := s.pos + (new_bit_pos >>> 3)
  if s.endPos < new_byte_pos ∨ (new_byte_pos = s.endPos ∧ new_bit_pos % 8 ≠ 0) then
    (0, { s with read_failed := true })
  else
    let bits_to_read := min (32 - s.bit_pos) bits
    let x := (s.bit_cache >>> s.bit_pos) &&& s_bits_mask bits_to_read
    let s1 := UpdateBitCacheSafe { s with bit_pos := s.bit_pos + bits_to_read }
    let rem := bits - bits_to_read
    if 0 < rem then
      let x := x ||| ((s1.bit_cache &&& s_bits_mask rem) <<< bits_to_read)
      (x, UpdateBitCacheSafe { s1 with bit_pos := s1.bit_pos + rem })
    else
      (x, s1)

/-- Peek8Bits: `(uint8_t)(bit_cache >> bit_pos)`. -/
def Peek8Bits (s : ReadStream) : Nat := (s.bit_cache >>> s.bit_pos) &&& 255

/-- Advance (unchecked). -/
def Advance (s : ReadStream) (n : Nat) : ReadStream :=
  UpdateBitCache { s with bit_pos := s.bit_pos + n }

/-- AdvanceChecked. -/
def AdvanceChecked (s : ReadStream) (n : Nat) : ReadStream :=
  let new_bit_pos := s.bit_pos + n
  let new_byte_pos := s.pos + (new_bit_pos >>> 3)
  if s.endPos < new_byte_pos ∨ (new_byte_pos = s.endPos ∧ new_bit_pos % 8 ≠ 0) then
    { s with read_failed := true }
  else
    UpdateBitCacheSafe { s with bit_pos := new_bit_pos }

/-- AdvanceBytesChecked: only allowed at byte-aligned positions, and not
past the end; re-populates the bit cache. -/
def AdvanceBytesChecked (s : ReadStream) (n : Nat) : ReadStream :=
  if s.bit_pos ≠ 0 ∨ s.endPos < s.pos + n then
    { s with read_failed := true }
  else
    ReInitBitCache { s with pos := s.pos + n }

/-- AtTheEnd: `byte_ptr == end_ptr && bit_pos == 0`, or
`byte_ptr == end_ptr - 1 && bit_pos > 0`. -/
def AtTheEnd (s : ReadStream) : Bool :=
  (s.pos = s.endPos ∧ s.bit_pos = 0) ∨ (s.pos + 1 = s.endPos ∧ 0 < s.bit_pos)

/-- `memcpy`-style bulk read of `n` bytes starting at byte index `pos`.
Out-of-range positions are undefined behaviour in C; the model reads 0. -/
def memcpyRead (buf : List Nat) (pos n : Nat) : List Nat :=
  (List.range n).map (fun i => byteAt buf (pos + i))

/-! ## Decoder failure reasons

The C API collapses every failure to `HZR_FAIL`; the model distinguishes
the failure sites (one constructor per `DLOG`/`return HZR_FAIL` site, named
after the spec's error taxonomy) so that claims about *why* a decode fails
can be stated.  `fuelOut` is a model artifact: the decode loops are
defined with a fuel argument that provably exceeds the number of loop
iterations possible on the given buffer. -/
inductive HErr where
  | tooLittleInput     -- hzr_decode: in_size < HZR_HEADER_SIZE
  | headerRead         -- could not read the 32-bit master header
  | outputTooSmall     -- hzr_decode: out_size < declared decoded size
  | blockHeaderRead    -- premature end of input reading a block header
  | copySizeMismatch   -- COPY block: encoded size != decoded size
  | fillValueEnd       -- FILL block: premature end reading the fill byte
  | invalidMode        -- encoding mode byte out of range
  | blockOverrun       -- HUFF_RLE: block end lands past the input end
  | treeRecovery       -- unable to decode the Huffman tree
  | inputEnded         -- input buffer ended prematurely inside a block body
  | outputFull         -- output buffer full
  | badRleSymbol       -- symbol >= 256 outside the five RLE tiers
  | notAtEnd           -- decoder did not reach the end of the input buffer
  | crcMismatch        -- hzr_verify only: CRC32 check failed
  | advancePastEnd     -- hzr_verify: premature end skipping block data
  | fuelOut            -- model artifact, unreachable with the fuel used
deriving Repr, DecidableEq

/-! ## Huffman tree recovery (hzr_decode.c: RecoverTree) -/

/-- `DecodeNode`: children are modelled as arena indices instead of
pointers (`none` = `NULL`); `symbol` is the C `int` field (−1 marks a
branch node). -/
structure DecodeNodeM where
  child_a : Option Nat
  child_b : Option Nat
  symbol : Int
deriving Repr, DecidableEq

instance : Inhabited DecodeNodeM := ⟨⟨none, none, -1⟩⟩

/-- `DecodeLutEntry`: `node` is an arena index (`none` = `NULL`). -/
structure DecodeLutEntry where
  node : Option Nat
  symbol : Int
  bits : Nat
deriving Repr, DecidableEq

instance : Inhabited DecodeLutEntry := ⟨⟨none, 0, 0⟩⟩

/-- The decoder's tree state: the node arena plus the 256-entry LUT.  In C
the arena is a fixed `nodes[kMaxTreeNodes]` array indexed by `*node_num`;
since nodes are allocated sequentially the arena is modelled as a list
whose length is the current `*node_num` (an entry at index ≥
`kMaxTreeNodes` corresponds to an out-of-bounds write in C).  The C LUT is
uninitialized stack memory; the model starts from default entries, which a
conforming stream never reads. -/
structure DecodeTreeState where
  nodes : List DecodeNodeM
  lut : List DecodeLutEntry
deriving Repr, DecidableEq

def initDecodeTreeState : DecodeTreeState :=
  { nodes := [], lut := List.replicate 256 default }

/-- The LUT fill loop for a leaf with code `code` of length `bits ≤ 8`:
`dups = 256 >> bits` entries at indices `(i << bits) | code`, each with
`bits = max bits 1` and the decoded symbol. -/
def fillLut (lut : List DecodeLutEntry) (code bits : Nat) (symbol : Int) :
    List DecodeLutEntry :=
  (List.range (256 >>> bits)).foldl
    (fun l i => l.set ((i <<< bits) ||| code) ⟨none, symbol, max bits 1⟩) lut

/-- Update the node at arena index `i`. -/
def setNode (nodes : List DecodeNodeM) (i : Nat) (f : DecodeNodeM → DecodeNodeM) :
    List DecodeNodeM :=
  nodes.set i (f (nodes.getD i default))

/-- RecoverTree.  The C guard after `*node_num = *node_num + 1` is
`if (UNLIKELY(*node_num) >= kMaxTreeNodes) return NULL;` where
`UNLIKELY(e)` expands to `__builtin_expect(!!(e), 0)`, whose *value* is
`!!(e) ∈ {0, 1}`; the comparison therefore tests `!!(*node_num) ≥ 521`,
which is translated verbatim below.  `code` is a C `uint32_t` and
`code + (1 << bits)` wraps modulo 2^32 (for `bits ≥ 31` the C `int` shift
is undefined; the model keeps the mod-2^32 value).  The fuel argument is a
model artifact: each call consumes at least one bit of the stream, so any
fuel above the remaining bit count makes the fuel branch unreachable. -/
def RecoverTree (fuel : Nat) (st : DecodeTreeState) (code bits : Nat)
    (s : ReadStream) : Option Nat × DecodeTreeState × ReadStream :=
  match fuel with
  | 0 => (none, st, s)
  | fuel + 1 =>
    -- Pick a node from the node array.
    let this_node := st.nodes.length
    -- *node_num = *node_num + 1; if (UNLIKELY(*node_num) >= kMaxTreeNodes) ...
    if (if this_node + 1 ≠ 0 then 1 else 0) ≥ kMaxTreeNodes then (none, st, s)
    else
      -- Clear the node.
      let st := { st with nodes := st.nodes ++ [⟨none, none, -1⟩] }
      -- Is this a leaf node?
      let (is_leaf, s) := ReadBitChecked s
      if s.read_failed then (none, st, s)
      else if is_leaf ≠ 0 then
        let (symbol, s) := ReadBitsChecked s kSymbolSize
        if s.read_failed then (none, st, s)
        else
          let newNodes := setNode st.nodes this_node
            (fun n => { n with symbol := (symbol : Int) })
          let st := { st with nodes := newNodes }
          let st := if bits ≤ 8 then
              { st with lut := fillLut st.lut code bits (symbol : Int) }
            else st
          (some this_node, st, s)
      else
        let st := if bits = 8 then
            { st with lut := st.lut.set code ⟨some this_node, 0, 8⟩ }
          else st
        -- Get branch A.
        match RecoverTree fuel st code (bits + 1) s with
        | (none, st, s) => (none, st, s)
        | (some a, st, s) =>
          let newNodes := setNode st.nodes this_node
            (fun n => { n with child_a := some a })
          let st := { st with nodes := newNodes }
          -- Get branch B.
          match RecoverTree fuel st ((code + (1 <<< bits)) % 2 ^ 32) (bits + 1) s with
          | (none, st, s) => (none, st, s)
          | (some b, st, s) =>
            let newNodes := setNode st.nodes this_node
              (fun n => { n with child_b := some b })
            let st := { st with nodes := newNodes }
            (some this_node, st, s)

/-! ## Block decoding (hzr_decode.c: DecodeSingleBlock) -/

/-- The bit-by-bit tree walk shared by the fast loop's slow case: while
the node is a branch, check the input bound, read one (unchecked) bit and
step to the corresponding child. -/
def TreeWalkFast (fuel : Nat) (nodes : List DecodeNodeM) (idx : Nat)
    (s : ReadStream) : Except HErr (Int × ReadStream) :=
  match fuel with
  | 0 => .error .fuelOut
  | fuel + 1 =>
    let node := nodes.getD idx default
    if node.symbol < 0 then
      if s.endPos ≤ s.pos then .error .inputEnded
      else
        let (b, s) := ReadBit s
        TreeWalkFast fuel nodes
          (if b ≠ 0 then node.child_b.getD 0 else node.child_a.getD 0) s
    else .ok (node.symbol, s)

/-- The checked tree walk of the tail loop: read one checked bit, step to
the child, fail if the stream failed. -/
def TreeWalkTail (fuel : Nat) (nodes : List DecodeNodeM) (idx : Nat)
    (s : ReadStream) : Except HErr (Int × ReadStream) :=
  match fuel with
  | 0 => .error .fuelOut
  | fuel + 1 =>
    let node := nodes.getD idx default
    if node.symbol < 0 then
      let (b, s) := ReadBit2 s
      let idx := if b ≠ 0 then node.child_b.getD 0 else node.child_a.getD 0
      if s.read_failed then .error .inputEnded
      else TreeWalkTail fuel nodes idx s
    else .ok (node.symbol, s)
where ReadBit2 := ReadBitChecked

/-- The RLE dispatch of the fast loop (unchecked `ReadBits` for the extra
bits), returning the number of zero bytes to emit. -/
def RleCountFast (symbol : Int) (s : ReadStream) :
    Except HErr (Nat × ReadStream) :=
  if symbol = (kSymTwoZeros : Int) then .ok (2, s)
  else if symbol = (kSymUpTo6Zeros : Int) then
    let (x, s) := ReadBits s 2; .ok (x + 3, s)
  else if symbol = (kSymUpTo22Zeros : Int) then
    let (x, s) := ReadBits s 4; .ok (x + 7, s)
  else if symbol = (kSymUpTo278Zeros : Int) then
    let (x, s) := ReadBits s 8; .ok (x + 23, s)
  else if symbol = (kSymUpTo16662Zeros : Int) then
    let (x, s) := ReadBits s 14; .ok (x + 279, s)
  else .error .badRleSymbol

/-- The RLE dispatch of the tail loop (checked reads). -/
def RleCountTail (symbol : Int) (s : ReadStream) :
    Except HErr (Nat × ReadStream) :=
  if symbol = (kSymTwoZeros : Int) then .ok (2, s)
  else if symbol = (kSymUpTo6Zeros : Int) then
    let (x, s) := ReadBitsChecked s 2; .ok (x + 3, s)
  else if symbol = (kSymUpTo22Zeros : Int) then
    let (x, s) := ReadBitsChecked s 4; .ok (x + 7, s)
  else if symbol = (kSymUpTo278Zeros : Int) then
    let (x, s) := ReadBitsChecked s 8; .ok (x + 23, s)
  else if symbol = (kSymUpTo16662Zeros : Int) then
    let (x, s) := ReadBitsChecked s 14; .ok (x + 279, s)
  else .error .badRleSymbol

/-- The fast decode loop: runs while the input cursor is below
`end_ptr - 10` (a pointer expression in C; reachable block ends are ≥ 11
bytes into the buffer, and the model's truncated subtraction makes the
loop exit early otherwise, which only strengthens the tail loop's checked
behaviour).  The output is an append-only accumulator standing for
`out_ptr` advancing over the caller's buffer. -/
def FastLoop (fuel : Nat) (tree : DecodeTreeState) (s : ReadStream)
    (out : List Nat) (out_size : Nat) : Except HErr (List Nat × ReadStream) :=
  match fuel with
  | 0 => .error .fuelOut
  | fuel + 1 =>
    if s.pos < s.endPos - 10 then
      let e := tree.lut.getD (Peek8Bits s) default
      let s := Advance s e.bits
      let symRes : Except HErr (Int × ReadStream) :=
        match e.node with
        | none => .ok (e.symbol, s)
        | some n0 => TreeWalkFast (8 * s.buf.length + 16) tree.nodes n0 s
      match symRes with
      | .error err => .error err
      | .ok (symbol, s) =>
        if symbol ≤ 255 then
          if out_size ≤ out.length then .error .outputFull
          else FastLoop fuel tree s (out ++ [symbol.toNat % 256]) out_size
        else
          match RleCountFast symbol s with
          | .error err => .error err
          | .ok (zero_count, s) =>
            if out_size < out.length + zero_count then .error .outputFull
            else FastLoop fuel tree s (out ++ List.replicate zero_count 0) out_size
    else .ok (out, s)

/-- The checked tail decode loop: runs until `out_size` bytes have been
produced.  Mirrors the single-symbol special case (a leaf root advances
one bit per output symbol). -/
def TailLoop (fuel : Nat) (tree : DecodeTreeState) (root : Nat)
    (s : ReadStream) (out : List Nat) (out_size : Nat) :
    Except HErr (List Nat × ReadStream) :=
  match fuel with
  | 0 => .error .fuelOut
  | fuel + 1 =>
    if out.length < out_size then
      let rootNode := tree.nodes.getD root default
      let step1 : Except HErr ReadStream :=
        if 0 ≤ rootNode.symbol then
          let s := AdvanceChecked s 1
          if s.read_failed then .error .inputEnded else .ok s
        else .ok s
      match step1 with
      | .error err => .error err
      | .ok s =>
        match TreeWalkTail (8 * s.buf.length + 16) tree.nodes root s with
        | .error err => .error err
        | .ok (symbol, s) =>
          if symbol ≤ 255 then
            TailLoop fuel tree root s (out ++ [symbol.toNat % 256]) out_size
          else
            match RleCountTail symbol s with
            | .error err => .error err
            | .ok (zero_count, s) =>
              if s.read_failed ∨ out_size < out.length + zero_count then
                .error .outputFull
              else TailLoop fuel tree root s (out ++ List.replicate zero_count 0)
                out_size
    else .ok (out, s)

/-- DecodeSingleBlock: block header, then COPY / FILL / HUFF_RLE dispatch.
Returns the decoded block bytes and the committed stream state. -/
def DecodeSingleBlock (s : ReadStream) (out_size : Nat) :
    Except HErr (List Nat × ReadStream) :=
  -- Re-init the bit cache.
  let s := ReInitBitCache s
  -- Read the block header.
  let (v, s) := ReadBitsChecked s 16
  let encoded_size := v + 1
  let (_crc, s) := ReadBitsChecked s 32  -- Skip CRC32.
  let (encoding_mode, s) := ReadBitsChecked s 8
  if s.read_failed then .error .blockHeaderRead
  -- Plain copy?
  else if encoding_mode = HZR_ENCODING_COPY then
    if encoded_size ≠ out_size then .error .copySizeMismatch
    else .ok (memcpyRead s.buf s.pos out_size, { s with pos := s.pos + out_size })
  -- Fill?
  else if encoding_mode = HZR_ENCODING_FILL then
    let (fill_value, s) := ReadBitsChecked s 8
    if s.read_failed then .error .fillValueEnd
    else .ok (List.replicate out_size fill_value, s)
  -- Check that the encoding mode is valid.
  else if encoding_mode ≠ HZR_ENCODING_HUFF_RLE then .error .invalidMode
  else
    -- Create a stream that is limited to this block.
    let block0 : ReadStream := { s with endPos := s.bytePtr + encoded_size }
    if s.endPos < block0.endPos then .error .blockOverrun
    else
      -- Recover the Huffman tree.
      match RecoverTree (8 * s.buf.length + 16) initDecodeTreeState 0 0 block0 with
      | (none, _, _) => .error .treeRecovery
      | (some root, tree, block) =>
        match FastLoop (8 * s.buf.length + out_size + 64) tree block [] out_size with
        | .error err => .error err
        | .ok (out, block) =>
          match TailLoop (out_size + 2) tree root block out out_size with
          | .error err => .error err
          | .ok (out, block) =>
            -- Commit the stream state, then align to the next byte boundary.
            let s := CopyReadState s block
            let s := if s.bit_pos ≠ 0 then
                { s with pos := s.pos + ((s.bit_pos + 7) >>> 3), bit_pos := 0 }
              else s
            .ok (out, s)

/-- The block loop of hzr_decode.  The loop runs once per block, i.e. at
most `left` times; the structural fuel `left` passed by `hzr_decode` makes
the fuel branch unreachable. -/
def DecodeBlocksAux : Nat → ReadStream → Nat → List Nat →
    Except HErr (List Nat × ReadStream)
  | fuel, s, left, acc =>
    if left = 0 then .ok (acc, s)
    else
      match fuel with
      | 0 => .error .fuelOut
      | fuel + 1 =>
        let this_block_size := min left HZR_MAX_BLOCK_SIZE
        match DecodeSingleBlock s this_block_size with
        | .error e => .error e
        | .ok (blockOut, s) =>
          DecodeBlocksAux fuel s (left - this_block_size) (acc ++ blockOut)

def DecodeBlocks (s : ReadStream) (left : Nat) (acc : List Nat) :
    Except HErr (List Nat × ReadStream) :=
  DecodeBlocksAux left s left acc

/-- hzr_decode.  The input buffer is the list `input` (with
`in_size = input.length`); `out_size` is the caller's output capacity.
Returns the decoded bytes, or the failure reason (the C API returns
`HZR_FAIL` for every `.error`). -/
def hzr_decode (input : List Nat) (out_size : Nat) : Except HErr (List Nat) :=
  -- To little input data?
  if input.length < HZR_HEADER_SIZE then .error .tooLittleInput
  else
    -- Read the header.
    let s := InitReadStream input input.length
    let (actual_out_size, s) := ReadBitsChecked s 32
    if s.read_failed then .error .headerRead
    else if out_size < actual_out_size then .error .outputTooSmall
    else
      -- Decompress the input data block by block.
      match DecodeBlocks s actual_out_size [] with
      | .error e => .error e
      | .ok (out, s) =>
        if ¬ AtTheEnd s then .error .notAtEnd
        else .ok out

/-! ## hzr_verify (hzr_decode.c) -/

/-- The block loop of hzr_verify.  Note that the CRC is computed over
`encoded_size` bytes starting at the current position *before*
`AdvanceBytesChecked` validates that range against the end of the input
(the model's `memcpyRead` reads 0 for the out-of-range bytes that are
undefined behaviour in C). -/
def VerifyBlocksAux : Nat → ReadStream → Nat → Except HErr Unit
  | fuel, s, left =>
    if left = 0 then .ok ()
    else
      match fuel with
      | 0 => .error .fuelOut
      | fuel + 1 =>
        let block_size := min left HZR_MAX_BLOCK_SIZE
        -- Parse the block header.
        let (v, s) := ReadBitsChecked s 16
        let encoded_size := v + 1
        let (expected_crc32, s) := ReadBitsChecked s 32
        let (encoding_mode, s) := ReadBitsChecked s 8
        if s.read_failed then .error .blockHeaderRead
        else if HZR_ENCODING_LAST < encoding_mode then .error .invalidMode
        else
          -- Check the checksum.
          let actual_crc32 := _hzr_crc32 (memcpyRead s.buf s.bytePtr encoded_size)
          if actual_crc32 ≠ expected_crc32 then .error .crcMismatch
          else
            -- Skip past the encoded data of this buffer.
            let s := AdvanceBytesChecked s encoded_size
            if s.read_failed then .error .advancePastEnd
            else VerifyBlocksAux fuel s (left - block_size)

def VerifyBlocks (s : ReadStream) (left : Nat) : Except HErr Unit :=
  VerifyBlocksAux left s left

/-- hzr_verify: returns the declared decoded size on success. -/
def hzr_verify (input : List Nat) : Except HErr Nat :=
  let s := InitReadStream input input.length
  -- Parse the master header.
  let (decoded_size, s) := ReadBitsChecked s 32
  if s.read_failed then .error .headerRead
  else
    match VerifyBlocks s decoded_size with
    | .error e => .error e
    | .ok () => .ok decoded_size

/-! ## Source ranges of the unguarded bulk reads (for the bounds claims)

These two functions mirror, line for line, the control flow of
`DecodeSingleBlock` up to its COPY-mode `memcpy`, and of `hzr_verify` up
to the first block's CRC computation, and return the byte range
`(start, length)` each bulk read covers.  They let theorems speak about
the source interval of those reads. -/

/-- The source range of the COPY-mode `memcpy` in DecodeSingleBlock, when
that statement is reached. -/
def DecodeCopySrcRange (s : ReadStream) (out_size : Nat) :
    Option (Nat × Nat) :=
  let s := ReInitBitCache s
  let (v, s) := ReadBitsChecked s 16
  let encoded_size := v + 1
  let (_crc, s) := ReadBitsChecked s 32
  let (encoding_mode, s) := ReadBitsChecked s 8
  if s.read_failed then none
  else if encoding_mode = HZR_ENCODING_COPY then
    if encoded_size ≠ out_size then none
    else some (s.pos, out_size)
  else none

/-- The source range of the CRC computation for the first block of
hzr_verify, when that statement is reached. -/
def VerifyCrcSrcRange (input : List Nat) : Option (Nat × Nat) :=
  let s := InitReadStream input input.length
  let (decoded_size, s) := ReadBitsChecked s 32
  if s.read_failed ∨ decoded_size = 0 then none
  else
    let (v, s) := ReadBitsChecked s 16
    let encoded_size := v + 1
    let (_expected_crc32, s) := ReadBitsChecked s 32
    let (encoding_mode, s) := ReadBitsChecked s 8
    if s.read_failed then none
    else if HZR_ENCODING_LAST < encoding_mode then none
    else some (s.bytePtr, encoded_size)

/-! ## WriteStream (hzr_encode.c)

In C all write streams are pointers into the caller's single output
buffer; the model therefore threads the buffer (a `List Nat` whose length
is the allocated size) explicitly through every operation, and
`WriteStream` carries only the cursor state.  `uint32_t` shift results
that can exceed 32 bits carry an explicit `% 2^32`. -/

structure WriteStream where
  pos : Nat
  endPos : Nat
  bit_pos : Nat
  bit_cache : Nat
  write_failed : Bool
deriving Repr, DecidableEq

def InitWriteStream (size : Nat) : WriteStream :=
  { pos := 0, endPos := size, bit_pos := 0, bit_cache := 0, write_failed := false }

/-- CopyWriteState: copy the write state without altering the end
pointer. -/
def CopyWriteState (s src : WriteStream) : WriteStream :=
  { s with
    pos := src.pos
    bit_pos := src.bit_pos
    bit_cache := src.bit_cache
    write_failed := src.write_failed }

def WriteStream.bytePtr (s : WriteStream) : Nat := s.pos + (s.bit_pos >>> 3)

def FlushBitCacheAux : Nat → List Nat → WriteStream → List Nat × WriteStream
  | 0, buf, s => (buf, s)
  | fuel + 1, buf, s =>
    if 8 ≤ s.bit_pos then
      if s.endPos ≤ s.pos then (buf, { s with write_failed := true })
      else
        FlushBitCacheAux fuel (buf.set s.pos (s.bit_cache % 256))
          { s with
            bit_cache := s.bit_cache >>> 8
            bit_pos := s.bit_pos - 8
            pos := s.pos + 1 }
    else (buf, s)

/-- FlushBitCache: emit whole bytes while `bit_pos >= 8`; sticky failure
when the cursor reaches the end.  (Fuel `bit_pos` covers the at most
`bit_pos / 8` loop iterations.) -/
def FlushBitCache (buf : List Nat) (s : WriteStream) : List Nat × WriteStream :=
  FlushBitCacheAux s.bit_pos buf s

/-- ForceFlushBitCache: flush whole bytes plus a final partial byte masked
to the low `bit_pos` bits. -/
def ForceFlushBitCache (buf : List Nat) (s : WriteStream) : List Nat × WriteStream :=
  let (buf, s) := FlushBitCache buf s
  if 0 < s.bit_pos then
    if s.endPos ≤ s.pos then (buf, { s with write_failed := true })
    else
      (buf.set s.pos (s.bit_cache &&& (0xff >>> (8 - s.bit_pos))),
        { s with bit_cache := 0, bit_pos := 0, pos := s.pos + 1 })
  else (buf, s)

/-- WriteBits.  The C contract requires all bits of `x` above position
`bits` to be zero; the first OR is `bit_cache |= (x << bit_pos)` with the
`uint32_t` truncation made explicit. -/
def WriteBits (buf : List Nat) (s : WriteStream) (x bits : Nat) :
    List Nat × WriteStream :=
  let bits_to_write := min (32 - s.bit_pos) bits
  let s := { s with
    bit_cache := s.bit_cache ||| ((x <<< s.bit_pos) % 2 ^ 32)
    bit_pos := s.bit_pos + bits_to_write }
  let (buf, s) := FlushBitCache buf s
  let rem := bits - bits_to_write
  if 0 < rem ∧ ¬s.write_failed then
    let x := x >>> bits_to_write
    let s := { s with
      bit_cache := s.bit_cache ||| ((x <<< s.bit_pos) % 2 ^ 32)
      bit_pos := s.bit_pos + rem }
    FlushBitCache buf s
  else (buf, s)

/-- `memcpy`-style bulk write of `l` starting at byte index `pos`. -/
def writeBytes (buf : List Nat) (pos : Nat) (l : List Nat) : List Nat :=
  (List.range l.length).foldl (fun b i => b.set (pos + i) (byteAt l i)) buf

/-! ## Histogram and symbol table (hzr_encode.c) -/

/-- SymbolInfo: frequency, assigned code word and code length for one
symbol. -/
structure SymbolInfo where
  symbol : Nat
  count : Nat
  code : Nat
  bits : Nat
deriving Repr, DecidableEq

instance : Inhabited SymbolInfo := ⟨⟨0, 0, 0, 0⟩⟩

/-- The zero-run scan shared by `Histogram` and the emit loop:
`for (zeros = 1; zeros < 16662 && k + zeros < in_size; ++zeros)
   if (in[k + zeros] != 0) break;` -/
def zeroRunAux (l : List Nat) (k : Nat) : Nat → Nat → Nat
  | 0, zeros => zeros
  | fuel + 1, zeros =>
    if zeros < 16662 ∧ k + zeros < l.length ∧ byteAt l (k + zeros) = 0 then
      zeroRunAux l k fuel (zeros + 1)
    else zeros

/-- The run length starting at a zero byte at position `k` (the loop runs
while `zeros < 16662`, so fuel 16662 always suffices). -/
def zeroRun (l : List Nat) (k : Nat) : Nat := zeroRunAux l k 16662 1

theorem zeroRunAux_ge (l : List Nat) (k : Nat) (fuel zeros : Nat) :
    zeros ≤ zeroRunAux l k fuel zeros := by
  induction fuel generalizing zeros with
  | zero => simp [zeroRunAux]
  | succ fuel ih =>
    simp only [zeroRunAux]
    split
    · exact le_trans (Nat.le_succ zeros) (ih (zeros + 1))
    · exact le_refl zeros

theorem zeroRun_pos (l : List Nat) (k : Nat) : 1 ≤ zeroRun l k :=
  zeroRunAux_ge l k 16662 1

/-- The tier symbol a zero run of length `zeros` is accounted to. -/
def rleSymbolOf (zeros : Nat) : Nat :=
  if zeros = 1 then 0
  else if zeros = 2 then kSymTwoZeros
  else if zeros ≤ 6 then kSymUpTo6Zeros
  else if zeros ≤ 22 then kSymUpTo22Zeros
  else if zeros ≤ 278 then kSymUpTo278Zeros
  else kSymUpTo16662Zeros

/-- `symbols[idx].count++`. -/
def incCount (syms : List SymbolInfo) (idx : Nat) : List SymbolInfo :=
  syms.set idx (let si := syms.getD idx default; { si with count := si.count + 1 })

/-- The histogram scan loop.  `k` advances by at least one per iteration,
so the fuel `l.length` passed by `Histogram` makes the fuel branch
unreachable. -/
def HistogramLoop (l : List Nat) : Nat → Nat → List SymbolInfo → List SymbolInfo
  | fuel, k, syms =>
    if k < l.length then
      match fuel with
      | 0 => syms
      | fuel + 1 =>
        let symbol := byteAt l k
        if symbol = 0 then
          let zeros := zeroRun l k
          HistogramLoop l fuel (k + zeros) (incCount syms (rleSymbolOf zeros))
        else HistogramLoop l fuel (k + 1) (incCount syms symbol)
    else syms

/-- The cleared/initialized symbol table: `symbols[k].symbol = k`, all
other fields zero. -/
def initSymbols : List SymbolInfo :=
  (List.range kNumSymbols).map (fun k => ⟨k, 0, 0, 0⟩)

/-- Histogram: clear the table, then scan the block. -/
def Histogram (l : List Nat) : List SymbolInfo :=
  HistogramLoop l l.length 0 initSymbols

/-! ## Huffman tree construction (hzr_encode.c: MakeTree / StoreTree) -/

/-- EncodeNode, with children as arena indices (`none` = `NULL`). -/
structure EncodeNode where
  child_a : Option Nat
  child_b : Option Nat
  count : Nat
  symbol : Int
deriving Repr, DecidableEq

instance : Inhabited EncodeNode := ⟨⟨none, none, 0, -1⟩⟩

/-- One step of the two-lightest-nodes scan of MakeTree (the loop body
over `k`), carried over the pair `(node_1, node_2)` of arena indices. -/
def FindTwoLightestStep (nodes : List EncodeNode)
    (st : Option Nat × Option Nat) (k : Nat) : Option Nat × Option Nat :=
  let (n1, n2) := st
  let ck := (nodes.getD k default).count
  if 0 < ck then
    match n1 with
    | none => (some k, n1)
    | some i1 =>
      if ck ≤ (nodes.getD i1 default).count then (some k, some i1)
      else
        match n2 with
        | none => (n1, some k)
        | some i2 =>
          if ck ≤ (nodes.getD i2 default).count then (n1, some k) else (n1, n2)
  else (n1, n2)

/-- The two-lightest-nodes scan: `for (k = 0; k < next_idx; ++k) ...`. -/
def FindTwoLightest (nodes : List EncodeNode) : Option Nat × Option Nat :=
  (List.range nodes.length).foldl (FindTwoLightestStep nodes) (none, none)

/-- Zero the count of the node at index `i` (marking it consumed). -/
def zeroCount (nodes : List EncodeNode) (i : Nat) : List EncodeNode :=
  nodes.set i (let n := nodes.getD i default; { n with count := 0 })

/-- The merge loop of MakeTree: join the two lightest nodes into a parent
appended at `next_idx` until one live node remains; returns the arena and
the index of the root (the last-created parent), or `none` when the loop
never ran.  (If the scan found no live pair the C code would dereference
`NULL`; the loop invariant — exactly `nodes_left` live nodes — makes that
unreachable, and the model returns the arena unchanged there.) -/
def MakeTreeLoop : List EncodeNode → Nat → Option Nat →
    List EncodeNode × Option Nat
  | nodes, nodes_left + 2, root =>
    match FindTwoLightest nodes with
    | (some i1, some i2) =>
      let c1 := (nodes.getD i1 default).count
      let c2 := (nodes.getD i2 default).count
      let root_idx := nodes.length
      let nodes := nodes ++ [⟨some i1, some i2, c1 + c2, -1⟩]
      let nodes := zeroCount (zeroCount nodes i1) i2
      MakeTreeLoop nodes (nodes_left + 1) (some root_idx)
    | _ => (nodes, root)
  | nodes, _, root => (nodes, root)

/-- The leaf nodes: one per symbol with a non-zero count, in symbol
order. -/
def initialLeaves (sym : List SymbolInfo) : List EncodeNode :=
  (sym.filter (fun si => 0 < si.count)).map
    (fun si => ⟨none, none, si.count, (si.symbol : Int)⟩)

/-- StoreTree: preorder emission of the tree plus code assignment into the
symbol table.  The symbol search loop (`for sym_idx ...`) is modelled by
`List.findIdx` (which returns the list length when no entry matches, the
analogue of the loop running to `kNumSymbols`).  `fuel` bounds the
recursion depth; any fuel above the arena size is enough, since in a
`MakeTree` arena every child index is smaller than its parent's. -/
def StoreTree (fuel : Nat) (nodes : List EncodeNode) (idx : Nat)
    (symbols : List SymbolInfo) (buf : List Nat) (s : WriteStream)
    (code bits : Nat) : List SymbolInfo × List Nat × WriteStream :=
  match fuel with
  | 0 => (symbols, buf, s)
  | fuel + 1 =>
    let node := nodes.getD idx default
    if 0 ≤ node.symbol then
      -- Append symbol to tree description.
      let (buf, s) := WriteBits buf s 1 1
      if s.write_failed then (symbols, buf, s)
      else
        let (buf, s) := WriteBits buf s node.symbol.toNat kSymbolSize
        if s.write_failed then (symbols, buf, s)
        else
          -- Find symbol index, store code info in symbol array.
          let sym_idx := symbols.findIdx (fun si => (si.symbol : Int) = node.symbol)
          let symbols := symbols.set sym_idx
            (let si := symbols.getD sym_idx default;
              { si with code := code, bits := bits })
          (symbols, buf, s)
    else
      -- This was not a leaf node.
      let (buf, s) := WriteBits buf s 0 1
      if s.write_failed then (symbols, buf, s)
      else
        -- Branch A, then branch B.
        let (symbols, buf, s) :=
          StoreTree fuel nodes (node.child_a.getD 0) symbols buf s code (bits + 1)
        StoreTree fuel nodes (node.child_b.getD 0) symbols buf s
          ((code + (1 <<< bits)) % 2 ^ 32) (bits + 1)

/-- MakeTree: build the tree from the histogram and store it (into the
stream and, as a code look-up-table, into the symbol array). -/
def MakeTree (sym : List SymbolInfo) (buf : List Nat) (s : WriteStream) :
    List SymbolInfo × List Nat × WriteStream :=
  let leaves := initialLeaves sym
  let num_symbols := leaves.length
  -- Special case: No symbols at all.
  if num_symbols = 0 then (sym, buf, s)
  else
    match MakeTreeLoop leaves num_symbols none with
    | (nodes, some root) => StoreTree (nodes.length + 1) nodes root sym buf s 0 0
    | (nodes, none) =>
      -- Special case: only one symbol => no binary tree.
      StoreTree (nodes.length + 1) nodes 0 sym buf s 0 1

/-! ## Mode selection and block encoding (hzr_encode.c) -/

/-- The scan loop of OnlySingleCode, returning the final `used_codes`
(with the early exit as soon as `used_codes > 1`). -/
def OnlySingleCodeLoop (symbols : List SymbolInfo) :
    Nat → Nat → Nat → Nat → Nat → Nat
  | fuel, k, used_codes, has_zeros, num_nonzero_codes =>
    if k < kNumSymbols then
      match fuel with
      | 0 => used_codes
      | fuel + 1 =>
        let si := symbols.getD k default
        if 0 < si.count then
          let x := si.symbol
          let has_zeros := if x = 0 ∨ 256 ≤ x then 1 else has_zeros
          let num_nonzero_codes :=
            if x = 0 ∨ 256 ≤ x then num_nonzero_codes else num_nonzero_codes + 1
          let used_codes := num_nonzero_codes + has_zeros
          if 1 < used_codes then used_codes
          else OnlySingleCodeLoop symbols fuel (k + 1) used_codes has_zeros
            num_nonzero_codes
        else OnlySingleCodeLoop symbols fuel (k + 1) used_codes has_zeros
          num_nonzero_codes
    else used_codes

/-- OnlySingleCode: the zero literal and every RLE tier count as one
shared "code".  (Fuel `kNumSymbols` covers the scan over all symbols.) -/
def OnlySingleCode (symbols : List SymbolInfo) : Bool :=
  OnlySingleCodeLoop symbols kNumSymbols 0 0 0 0 = 1

/-- PlainCopy: emit the block header and the raw input bytes.  Returns
`none` for `HZR_FAIL` (output buffer too small), otherwise the updated
buffer, the stream and the encoded size. -/
def PlainCopy (inl : List Nat) (buf : List Nat) (s : WriteStream) :
    Option (List Nat × WriteStream × Nat) :=
  -- Check that the output buffer is large enough.
  if s.endPos < s.bytePtr + HZR_BLOCK_HEADER_SIZE + inl.length then none
  else
    let crc32 := _hzr_crc32 inl
    -- Write the block header. ((uint32_t)(in_size - 1); in_size ≥ 1 at
    -- every call site, so the Nat subtraction matches the C value.)
    let (buf, s) := WriteBits buf s (inl.length - 1) 16
    let (buf, s) := WriteBits buf s crc32 32
    let (buf, s) := WriteBits buf s HZR_ENCODING_COPY 8
    let (buf, s) := ForceFlushBitCache buf s
    -- Copy the input buffer to the output buffer; advance the stream.
    let buf := writeBytes buf s.bytePtr inl
    let s := { s with pos := s.pos + inl.length }
    some (buf, s, inl.length + HZR_BLOCK_HEADER_SIZE)

/-- EncodeFill: emit the block header plus the single fill byte
(`_hzr_crc32(in, 1)` hashes exactly the first input byte). -/
def EncodeFill (inl : List Nat) (buf : List Nat) (s : WriteStream) :
    Option (List Nat × WriteStream × Nat) :=
  -- Check that the output buffer is large enough.
  if s.endPos < s.bytePtr + HZR_BLOCK_HEADER_SIZE + 1 then none
  else
    let crc32 := _hzr_crc32 (inl.take 1)
    -- Write the block header.
    let (buf, s) := WriteBits buf s 0 16
    let (buf, s) := WriteBits buf s crc32 32
    let (buf, s) := WriteBits buf s HZR_ENCODING_FILL 8
    -- Write the fill code.
    let (buf, s) := WriteBits buf s (byteAt inl 0) 8
    let (buf, s) := ForceFlushBitCache buf s
    some (buf, s, HZR_BLOCK_HEADER_SIZE + 1)

/-- The symbol emission loop of EncodeSingleBlock.  Stops early when the
block stream has failed (the caller then falls back to PlainCopy, exactly
as the C `return PlainCopy(...)` inside the loop does). -/
def EmitLoop (inl : List Nat) : Nat → Nat → List SymbolInfo →
    List Nat → WriteStream → List Nat × WriteStream
  | 0, k, symbols, buf, s => (buf, s)
  | fuel + 1, k, symbols, buf, s =>
    if k < inl.length then
    let symbol := byteAt inl k
    let next := if symbol = 0 then k + zeroRun inl k else k + 1
    let (buf, s) :=
      if symbol = 0 then
        let zeros := zeroRun inl k
        let (buf, s) :=
          if zeros = 1 then
            let si := symbols.getD 0 default
            WriteBits buf s si.code si.bits
          else if zeros = 2 then
            let si := symbols.getD kSymTwoZeros default
            WriteBits buf s si.code si.bits
          else if zeros ≤ 6 then
            let si := symbols.getD kSymUpTo6Zeros default
            let (buf, s) := WriteBits buf s si.code si.bits
            WriteBits buf s (zeros - 3) 2
          else if zeros ≤ 22 then
            let si := symbols.getD kSymUpTo22Zeros default
            let (buf, s) := WriteBits buf s si.code si.bits
            WriteBits buf s (zeros - 7) 4
          else if zeros ≤ 278 then
            let si := symbols.getD kSymUpTo278Zeros default
            let (buf, s) := WriteBits buf s si.code si.bits
            WriteBits buf s (zeros - 23) 8
          else
            let si := symbols.getD kSymUpTo16662Zeros default
            let (buf, s) := WriteBits buf s si.code si.bits
            WriteBits buf s (zeros - 279) 14
        (buf, s)
      else
        let si := symbols.getD symbol default
        WriteBits buf s si.code si.bits
    if s.write_failed then (buf, s)
    else EmitLoop inl fuel next symbols buf s
    else (buf, s)

/-- EncodeSingleBlock: optimistic HUFF_RLE with FILL and COPY fallbacks.
Returns `none` for `HZR_FAIL`, otherwise the updated buffer, the
committed stream and this block's encoded size. -/
def EncodeSingleBlock (buf : List Nat) (s : WriteStream) (inl : List Nat) :
    Option (List Nat × WriteStream × Nat) :=
  -- Create a stream that is limited to this block.
  let block : WriteStream :=
    { s with endPos := min (s.bytePtr + HZR_BLOCK_HEADER_SIZE + inl.length) s.endPos }
  -- Zero out the block header (will be filled out later).
  if block.endPos < block.bytePtr + HZR_BLOCK_HEADER_SIZE then none
  else
    let (buf, block) := WriteBits buf block 0 16
    let (buf, block) := WriteBits buf block 0 32
    let (buf, block) := WriteBits buf block 0 8
    -- Calculate the histogram for input data.
    let symbols := Histogram inl
    -- Check if we have a single symbol.
    if OnlySingleCode symbols then EncodeFill inl buf s
    else
      -- Build the Huffman tree, and write it to the output stream.
      let (symbols, buf, block) := MakeTree symbols buf block
      if block.write_failed then PlainCopy inl buf s
      else
        -- Encode the input stream.  (`k` advances by at least one per
        -- iteration, so fuel `inl.length` always suffices.)
        let (buf, block) := EmitLoop inl inl.length 0 symbols buf block
        if block.write_failed then PlainCopy inl buf s
        else
          -- Write final bits to the stream.
          let (buf, block) := ForceFlushBitCache buf block
          -- Make sure that the compressed buffer fit into this block.
          let encoded_size_wo_hdr :=
            block.bytePtr - s.bytePtr - HZR_BLOCK_HEADER_SIZE
          if block.write_failed ∨ HZR_MAX_BLOCK_SIZE ≤ encoded_size_wo_hdr then
            PlainCopy inl buf s
          else
            -- Calculate the CRC for the compressed buffer.
            let crc32 := _hzr_crc32
              (memcpyRead buf (s.bytePtr + HZR_BLOCK_HEADER_SIZE) encoded_size_wo_hdr)
            -- Write the block header.
            let (buf, hs) := WriteBits buf s (encoded_size_wo_hdr - 1) 16
            let (buf, hs) := WriteBits buf hs crc32 32
            let (buf, hs) := WriteBits buf hs HZR_ENCODING_HUFF_RLE 8
            -- Commit the stream state.
            let s := CopyWriteState hs block
            some (buf, s, encoded_size_wo_hdr + HZR_BLOCK_HEADER_SIZE)

/-- hzr_max_compressed_size. -/
def hzr_max_compressed_size (uncompressed_size : Nat) : Nat :=
  let data_size :=
    if 0 < uncompressed_size then
      ((uncompressed_size + HZR_MAX_BLOCK_SIZE - 1) / HZR_MAX_BLOCK_SIZE) *
        HZR_BLOCK_HEADER_SIZE + uncompressed_size
    else 0
  HZR_HEADER_SIZE + data_size

/-- The block loop of hzr_encode, over the remaining input
`inl.drop k`. -/
def EncodeBlocksAux (inl : List Nat) : Nat → Nat → List Nat → WriteStream →
    Nat → Option (List Nat × WriteStream × Nat)
  | fuel, k, buf, s, total =>
    if k < inl.length then
      match fuel with
      | 0 => none
      | fuel + 1 =>
        let this_block_size := min (inl.length - k) HZR_MAX_BLOCK_SIZE
        match EncodeSingleBlock buf s ((inl.drop k).take this_block_size) with
        | none => none
        | some (buf, s, this_encoded_size) =>
          EncodeBlocksAux inl fuel (k + this_block_size) buf s
            (total + this_encoded_size)
    else some (buf, s, total)

def EncodeBlocks (inl : List Nat) (k : Nat) (buf : List Nat) (s : WriteStream)
    (total : Nat) : Option (List Nat × WriteStream × Nat) :=
  EncodeBlocksAux inl inl.length k buf s total

/-- hzr_encode.  `out` is the initial contents of the caller's output
buffer (`out_size = out.length`).  Returns `none` for `HZR_FAIL`,
otherwise the final buffer contents and the reported encoded size.  The
master header stores `(uint32_t)in_size = in_size % 2^32`. -/
def hzr_encode (inl : List Nat) (out : List Nat) : Option (List Nat × Nat) :=
  -- Check that there is enough space in the output buffer for the header.
  if out.length < HZR_HEADER_SIZE then none
  else
    -- Initialize the output stream; write the master header.
    let s := InitWriteStream out.length
    let (buf, s) := WriteBits out s (inl.length % 2 ^ 32) 32
    let (buf, s) := ForceFlushBitCache buf s
    -- Compress the input data block by block.
    match EncodeBlocks inl 0 buf s 0 with
    | none => none
    | some (buf, _, blocks_size) => some (buf, HZR_HEADER_SIZE + blocks_size)

/-- The little-endian bytes of a 32-bit value (for stating wire-format
facts). -/
def le32 (x : Nat) : List Nat :=
  [x % 256, (x >>> 8) % 256, (x >>> 16) % 256, (x >>> 24) % 256]

/-! ## Basic invariants of the read-stream operations -/

/-- The cache-refill loop never touches the buffer, the end pointer or the
failure flag, and only moves the cursor forward. -/
theorem UpdateBitCacheSafeAux_inv (fuel : Nat) : ∀ s : ReadStream,
    (UpdateBitCacheSafeAux fuel s).buf = s.buf ∧
    (UpdateBitCacheSafeAux fuel s).endPos = s.endPos ∧
    (UpdateBitCacheSafeAux fuel s).read_failed = s.read_failed ∧
    s.pos ≤ (UpdateBitCacheSafeAux fuel s).pos := by
  induction fuel with
  | zero => intro s; simp [UpdateBitCacheSafeAux]
  | succ fuel ih =>
    intro s
    simp only [UpdateBitCacheSafeAux]
    split
    · obtain ⟨h1, h2, h3, h4⟩ := ih
        { s with
          bit_cache := (s.bit_cache >>> 8) |||
            (if s.pos + 4 < s.endPos then byteAt s.buf (s.pos + 4) <<< 24 else 0)
          bit_pos := s.bit_pos - 8
          pos := s.pos + 1 }
      refine ⟨h1, h2, h3, ?_⟩
      simp only at h4
      omega
    · simp

theorem UpdateBitCacheAux_inv (fuel : Nat) : ∀ s : ReadStream,
    (UpdateBitCacheAux fuel s).buf = s.buf ∧
    (UpdateBitCacheAux fuel s).endPos = s.endPos ∧
    (UpdateBitCacheAux fuel s).read_failed = s.read_failed ∧
    s.pos ≤ (UpdateBitCacheAux fuel s).pos := by
  induction fuel with
  | zero => intro s; simp [UpdateBitCacheAux]
  | succ fuel ih =>
    intro s
    simp only [UpdateBitCacheAux]
    split
    · obtain ⟨h1, h2, h3, h4⟩ := ih
        { s with
          bit_cache := (s.bit_cache >>> 8) ||| (byteAt s.buf (s.pos + 4) <<< 24)
          bit_pos := s.bit_pos - 8
          pos := s.pos + 1 }
      refine ⟨h1, h2, h3, ?_⟩
      simp only at h4
      omega
    · simp

theorem UpdateBitCacheSafe_read_failed (s : ReadStream) :
    (UpdateBitCacheSafe s).read_failed = s.read_failed :=
  (UpdateBitCacheSafeAux_inv s.bit_pos s).2.2.1

theorem UpdateBitCache_read_failed (s : ReadStream) :
    (UpdateBitCache s).read_failed = s.read_failed :=
  (UpdateBitCacheAux_inv s.bit_pos s).2.2.1

/-! ## Claim C5 — sticky failure of the checked read operations -/

/-- The stream state obtained by a failing 16-bit checked read on a
one-byte buffer: the sticky flag is set, but the cursor still stands one
byte before the end. -/
def c5FailedStream : ReadStream := (ReadBitsChecked (InitReadStream [255] 1) 16).2

/-- C5, counterexample: after a 16-bit checked read fails on the one-byte
buffer `[0xFF]` (setting the sticky flag without advancing), a subsequent
`ReadBitChecked` does *not* return zero and *does* advance the read
position: the checked reads test the cursor against the end pointer, not
the sticky flag.  This falsifies "every subsequent checked read operation
returns zero and does not advance the logical read position". -/
theorem C5_sticky_failure_counterexample :
    c5FailedStream.read_failed = true ∧
    (ReadBitChecked c5FailedStream).1 = 1 ∧
    (ReadBitChecked c5FailedStream).2.bit_pos = c5FailedStream.bit_pos + 1 := by
  decide

/-- C5, amended: the failure flag is monotone (never cleared by a checked
read), and the checked read that *sets* the flag returns zero and does not
advance the read position; a later checked read on a failed stream may
still read, since the bounds test consults only the cursor and end
pointer. -/
theorem ReadBitChecked_mono (s : ReadStream) (hf : s.read_failed = true) :
    (ReadBitChecked s).2.read_failed = true := by
  simp only [ReadBitChecked]
  split
  · simp
  · simpa [UpdateBitCacheSafe_read_failed] using hf

theorem ReadBitsChecked_mono (s : ReadStream) (n : Nat)
    (hf : s.read_failed = true) : (ReadBitsChecked s n).2.read_failed = true := by
  simp only [ReadBitsChecked]
  split
  · simp
  · split <;> simpa [UpdateBitCacheSafe_read_failed] using hf

theorem ReadBitChecked_onset (s : ReadStream) (hok : s.read_failed = false)
    (hf : (ReadBitChecked s).2.read_failed = true) :
    (ReadBitChecked s).1 = 0 ∧ (ReadBitChecked s).2.pos = s.pos ∧
    (ReadBitChecked s).2.bit_pos = s.bit_pos := by
  by_cases hc : s.endPos ≤ s.pos
  · simp [ReadBitChecked, hc]
  · exfalso
    simp [ReadBitChecked, hc, UpdateBitCacheSafe_read_failed, hok] at hf

theorem ReadBitsChecked_onset (s : ReadStream) (n : Nat)
    (hok : s.read_failed = false)
    (hf : (ReadBitsChecked s n).2.read_failed = true) :
    (ReadBitsChecked s n).1 = 0 ∧ (ReadBitsChecked s n).2.pos = s.pos ∧
    (ReadBitsChecked s n).2.bit_pos = s.bit_pos := by
  by_cases hc : s.endPos < s.pos + (s.bit_pos + n) >>> 3 ∨
      (s.pos + (s.bit_pos + n) >>> 3 = s.endPos ∧ (s.bit_pos + n) % 8 ≠ 0)
  · simp [ReadBitsChecked, hc]
  · exfalso
    simp only [ReadBitsChecked, if_neg hc] at hf
    split at hf <;>
      simp [UpdateBitCacheSafe_read_failed, hok] at hf

/-- C5, amended: the failure flag is monotone (never cleared by a checked
read), and the checked read that *sets* the flag returns zero and does not
advance the read position; a later checked read on a failed stream may
still read, since the bounds test consults only the cursor and end
pointer. -/
theorem C5_sticky_failure_amended (s : ReadStream) (n : Nat) :
    (s.read_failed = true →
      (ReadBitChecked s).2.read_failed = true ∧
      (ReadBitsChecked s n).2.read_failed = true) ∧
    (s.read_failed = false → (ReadBitChecked s).2.read_failed = true →
      (ReadBitChecked s).1 = 0 ∧ (ReadBitChecked s).2.pos = s.pos ∧
      (ReadBitChecked s).2.bit_pos = s.bit_pos) ∧
    (s.read_failed = false → (ReadBitsChecked s n).2.read_failed = true →
      (ReadBitsChecked s n).1 = 0 ∧ (ReadBitsChecked s n).2.pos = s.pos ∧
      (ReadBitsChecked s n).2.bit_pos = s.bit_pos) :=
  ⟨fun hf => ⟨ReadBitChecked_mono s hf, ReadBitsChecked_mono s n hf⟩,
   fun hok hf => ReadBitChecked_onset s hok hf,
   fun hok hf => ReadBitsChecked_onset s n hok hf⟩

/-- Witness for C5's amended theorem at the concrete failed stream. -/
theorem C5_sticky_failure_amended_witness :
    c5FailedStream.read_failed = true ∧
    (ReadBitChecked c5FailedStream).2.read_failed = true :=
  ⟨by decide, ((C5_sticky_failure_amended c5FailedStream 1).1 (by decide)).1⟩

/-! ## Claim C2 — the 16-bit length field is not bounds-checked before the
COPY-mode copy and the verifier's CRC computation -/

/-- A 13-byte artifact: master header declares 5 decoded bytes, the block
header declares an encoded body of 5 bytes in COPY mode, but only 2 body
bytes are present in the buffer. -/
def c2CopyInput : List Nat := [5, 0, 0, 0, 4, 0] ++ le32 0 ++ [0] ++ [9, 9]

/-- The stream state hzr_decode hands DecodeSingleBlock on `c2CopyInput`
(after the master header read). -/
def c2CopyStream : ReadStream :=
  (ReadBitsChecked (InitReadStream c2CopyInput c2CopyInput.length) 32).2

/-- An 11-byte buffer: master header declares 1 decoded byte, the block
header declares an encoded body of 65536 bytes (field `0xFFFF`) in
HUFF_RLE mode, and the buffer ends right after the block header. -/
def c2VerifyInput : List Nat := [1, 0, 0, 0, 255, 255] ++ le32 0 ++ [1]

/-- C2 fails on the code: the decoder's COPY-mode `memcpy` reads the
declared `encoded_size` bytes `[11, 16)` from the 13-byte input with no
bounds check (and `DecodeSingleBlock` completes the copy), and the
verifier computes the CRC over the declared 65536 body bytes `[11, 65547)`
of an 11-byte input before `AdvanceBytesChecked` performs the only bounds
check.  In C both are out-of-range reads; the claim says such reads are
unreachable. -/
theorem C2_unchecked_length_reads :
    DecodeCopySrcRange c2CopyStream 5 = some (11, 5) ∧
    c2CopyInput.length = 13 ∧ 13 < 11 + 5 ∧
    (DecodeSingleBlock c2CopyStream 5).toOption.map Prod.fst =
      some (memcpyRead c2CopyInput 11 5) ∧
    VerifyCrcSrcRange c2VerifyInput = some (11, 65536) ∧
    c2VerifyInput.length = 11 ∧ 11 < 11 + 65536 := by
  refine ⟨by decide, by decide, by decide, ?_, by decide, by decide, by decide⟩
  rfl

/-! ## Claim C4 — verifier soundness -/

/-- A 12-byte artifact whose single HUFF_RLE block has the one-byte body
`0x00` (with a matching CRC): the verifier accepts it, but the decoder's
tree recovery runs out of input. -/
def c4Input : List Nat := [1, 0, 0, 0, 0, 0] ++ le32 (_hzr_crc32 [0]) ++ [1, 0]

/-- C4, counterexample: `hzr_verify` returns OK (the CRC matches and the
headers parse), yet `hzr_decode` fails — the tree deserialization hits the
end of the block body, a truncation failure.  This falsifies "if
hzr_verify(b) = HZR_OK then hzr_decode(b, out) does not fail due to
truncated input, an invalid block mode, or a CRC mismatch". -/
theorem C4_verifier_soundness_counterexample :
    hzr_verify c4Input = .ok 1 ∧
    hzr_decode c4Input 1 = .error .treeRecovery := ⟨rfl, rfl⟩

theorem RleCountFast_ne_crc (sym : Int) (s : ReadStream) :
    RleCountFast sym s ≠ .error .crcMismatch := by
  unfold RleCountFast
  repeat' split
  all_goals simp

theorem RleCountTail_ne_crc (sym : Int) (s : ReadStream) :
    RleCountTail sym s ≠ .error .crcMismatch := by
  unfold RleCountTail
  repeat' split
  all_goals simp

theorem TreeWalkFast_ne_crc (fuel : Nat) (nodes : List DecodeNodeM) :
    ∀ (idx : Nat) (s : ReadStream),
    TreeWalkFast fuel nodes idx s ≠ .error .crcMismatch := by
  induction fuel with
  | zero => intro idx s; simp [TreeWalkFast]
  | succ fuel ih =>
    intro idx s
    simp only [TreeWalkFast]
    repeat' split
    all_goals first
      | apply ih
      | simp

theorem TreeWalkTail_ne_crc (fuel : Nat) (nodes : List DecodeNodeM) :
    ∀ (idx : Nat) (s : ReadStream),
    TreeWalkTail fuel nodes idx s ≠ .error .crcMismatch := by
  induction fuel with
  | zero => intro idx s; simp [TreeWalkTail]
  | succ fuel ih =>
    intro idx s
    simp only [TreeWalkTail, TreeWalkTail.ReadBit2]
    repeat' split
    all_goals first
      | apply ih
      | simp

theorem FastLoop_ne_crc (fuel : Nat) (tree : DecodeTreeState) :
    ∀ (s : ReadStream) (out : List Nat) (out_size : Nat),
    FastLoop fuel tree s out out_size ≠ .error .crcMismatch := by
  induction fuel with
  | zero => intro s out out_size; simp [FastLoop]
  | succ fuel ih =>
    intro s out out_size
    simp only [FastLoop]
    repeat' split
    all_goals first
      | apply ih
      | (rename_i heq
         intro hcontra
         cases hcontra
         first
           | exact RleCountFast_ne_crc _ _ heq
           | exact TreeWalkFast_ne_crc _ _ _ _ heq
           | (split at heq
              · simp at heq
              · exact TreeWalkFast_ne_crc _ _ _ _ heq))
      | simp

theorem TailLoop_ne_crc (fuel : Nat) (tree : DecodeTreeState) (root : Nat) :
    ∀ (s : ReadStream) (out : List Nat) (out_size : Nat),
    TailLoop fuel tree root s out out_size ≠ .error .crcMismatch := by
  induction fuel with
  | zero => intro s out out_size; simp [TailLoop]
  | succ fuel ih =>
    intro s out out_size
    simp only [TailLoop]
    repeat' split
    all_goals first
      | apply ih
      | (rename_i heq
         intro hcontra
         cases hcontra
         first
           | exact RleCountTail_ne_crc _ _ heq
           | exact TreeWalkTail_ne_crc _ _ _ _ heq
           | (repeat' split at heq
              all_goals
                first
                  | simp at heq
                  | exact TreeWalkTail_ne_crc _ _ _ _ heq))
      | simp

theorem DecodeSingleBlock_ne_crc (s : ReadStream) (out_size : Nat) :
    DecodeSingleBlock s out_size ≠ .error .crcMismatch := by
  unfold DecodeSingleBlock
  dsimp only
  repeat' split
  all_goals first
    | (rename_i heq
       intro hcontra
       cases hcontra
       first
         | exact FastLoop_ne_crc _ _ _ _ _ heq
         | exact TailLoop_ne_crc _ _ _ _ _ _ heq)
    | simp

theorem DecodeBlocksAux_ne_crc (fuel : Nat) :
    ∀ (s : ReadStream) (left : Nat) (acc : List Nat),
    DecodeBlocksAux fuel s left acc ≠ .error .crcMismatch := by
  induction fuel with
  | zero => intro s left acc; simp only [DecodeBlocksAux]; split <;> simp
  | succ fuel ih =>
    intro s left acc
    simp only [DecodeBlocksAux]
    repeat' split
    all_goals first
      | apply ih
      | (rename_i heq
         intro hcontra
         cases hcontra
         exact DecodeSingleBlock_ne_crc _ _ heq)
      | simp

/-- C4, amended: when `hzr_verify(b) = HZR_OK`, `hzr_decode(b, out)` never
fails because of a CRC mismatch — indeed the decoder never compares CRCs
on *any* input (only `hzr_verify` does); but it may still fail due to
truncated input or an invalid mode encountered while decoding block
bodies, which the verifier does not inspect. -/
theorem C4_verifier_soundness_amended (input : List Nat) (out_size : Nat) :
    hzr_decode input out_size ≠ .error .crcMismatch := by
  simp only [hzr_decode, DecodeBlocks]
  repeat' split
  all_goals first
    | (rename_i heq
       intro hcontra
       cases hcontra
       exact DecodeBlocksAux_ne_crc _ _ _ _ heq)
    | simp

/-! ## Remaining-bit accounting for the checked reads -/

/-- The number of unconsumed bits between the cursor and the end
pointer. -/
def remBits (s : ReadStream) : Nat := 8 * (s.endPos - s.pos) - s.bit_pos

/-- The cache-update loop with fuel `f ≥ (bit_pos - 7) / 8`-ish always
drains: the cursor advances by `bit_pos / 8` bytes and the bit position
ends below 8.  (The guard only affects the cache *content*, never the
cursor.) -/
theorem UpdateBitCacheSafeAux_drain (fuel : Nat) : ∀ s : ReadStream,
    s.bit_pos ≤ 8 * fuel + 7 →
    (UpdateBitCacheSafeAux fuel s).pos = s.pos + s.bit_pos / 8 ∧
    (UpdateBitCacheSafeAux fuel s).bit_pos = s.bit_pos % 8 := by
  induction fuel with
  | zero =>
    intro s h
    have hb : s.bit_pos < 8 := by omega
    simp [UpdateBitCacheSafeAux, Nat.div_eq_of_lt hb, Nat.mod_eq_of_lt hb]
  | succ fuel ih =>
    intro s h
    by_cases hb : 8 ≤ s.bit_pos
    · simp only [UpdateBitCacheSafeAux, if_pos hb]
      obtain ⟨h1, h2⟩ := ih
        { s with
          bit_cache := (s.bit_cache >>> 8) |||
            (if s.pos + 4 < s.endPos then byteAt s.buf (s.pos + 4) <<< 24 else 0)
          bit_pos := s.bit_pos - 8
          pos := s.pos + 1 } (by simp only []; omega)
      simp only [] at h1 h2
      constructor
      · rw [h1]; omega
      · rw [h2]; omega
    · have hlt : s.bit_pos < 8 := by omega
      simp [UpdateBitCacheSafeAux, if_neg hb, Nat.div_eq_of_lt hlt,
        Nat.mod_eq_of_lt hlt]

/-- UpdateBitCacheSafe always drains (fuel `bit_pos` suffices). -/
theorem UpdateBitCacheSafe_drain (s : ReadStream) :
    (UpdateBitCacheSafe s).pos = s.pos + s.bit_pos / 8 ∧
    (UpdateBitCacheSafe s).bit_pos = s.bit_pos % 8 :=
  UpdateBitCacheSafeAux_drain s.bit_pos s (by omega)

/-- Behaviour of ReadBitChecked on a well-formed stream: on failure the
state is unchanged but for the flag; on success one bit is consumed. -/
theorem ReadBitChecked_spec (s : ReadStream) (hb : s.bit_pos < 8)
    (hp : s.pos ≤ s.endPos) :
    (s.endPos ≤ s.pos →
      (ReadBitChecked s).2 = { s with read_failed := true }) ∧
    (s.pos < s.endPos →
      (ReadBitChecked s).2.bit_pos < 8 ∧
      (ReadBitChecked s).2.pos ≤ (ReadBitChecked s).2.endPos ∧
      (ReadBitChecked s).2.endPos = s.endPos ∧
      (ReadBitChecked s).2.buf = s.buf ∧
      (ReadBitChecked s).2.read_failed = s.read_failed ∧
      remBits (ReadBitChecked s).2 + 1 = remBits s) := by
  constructor
  · intro h
    simp [ReadBitChecked, if_pos h]
  · intro h
    have hc : ¬ s.endPos ≤ s.pos := by omega
    have hd1 : (UpdateBitCacheSafe { s with bit_pos := s.bit_pos + 1 }).pos =
        s.pos + (s.bit_pos + 1) / 8 :=
      (UpdateBitCacheSafe_drain { s with bit_pos := s.bit_pos + 1 }).1
    have hd2 : (UpdateBitCacheSafe { s with bit_pos := s.bit_pos + 1 }).bit_pos =
        (s.bit_pos + 1) % 8 :=
      (UpdateBitCacheSafe_drain { s with bit_pos := s.bit_pos + 1 }).2
    have hi := UpdateBitCacheSafeAux_inv
      ({ s with bit_pos := s.bit_pos + 1 } : ReadStream).bit_pos
      { s with bit_pos := s.bit_pos + 1 }
    have hi1 : (UpdateBitCacheSafe { s with bit_pos := s.bit_pos + 1 }).buf =
        s.buf := hi.1
    have hi2 : (UpdateBitCacheSafe { s with bit_pos := s.bit_pos + 1 }).endPos =
        s.endPos := hi.2.1
    have hi3 : (UpdateBitCacheSafe { s with bit_pos := s.bit_pos + 1 }).read_failed
        = s.read_failed := hi.2.2.1
    simp only [ReadBitChecked, if_neg hc]
    refine ⟨by rw [hd2]; omega, by rw [hd1, hi2]; omega, hi2, hi1, hi3, ?_⟩
    unfold remBits
    rw [hd1, hd2, hi2]
    omega

/-- Behaviour of ReadBitsChecked for `n ≤ 25` bits (all uses in the tree
deserializer) on a well-formed stream. -/
theorem ReadBitsChecked_spec (s : ReadStream) (n : Nat) (hb : s.bit_pos < 8)
    (hp : s.pos ≤ s.endPos) (hn : n ≤ 25) :
    (¬ (s.endPos < s.pos + (s.bit_pos + n) >>> 3 ∨
        (s.pos + (s.bit_pos + n) >>> 3 = s.endPos ∧ (s.bit_pos + n) % 8 ≠ 0)) →
      (ReadBitsChecked s n).2.bit_pos < 8 ∧
      (ReadBitsChecked s n).2.pos ≤ (ReadBitsChecked s n).2.endPos ∧
      (ReadBitsChecked s n).2.endPos = s.endPos ∧
      (ReadBitsChecked s n).2.buf = s.buf ∧
      (ReadBitsChecked s n).2.read_failed = s.read_failed ∧
      remBits (ReadBitsChecked s n).2 + n = remBits s) ∧
    ((s.endPos < s.pos + (s.bit_pos + n) >>> 3 ∨
        (s.pos + (s.bit_pos + n) >>> 3 = s.endPos ∧ (s.bit_pos + n) % 8 ≠ 0)) →
      (ReadBitsChecked s n).2 = { s with read_failed := true }) := by
  constructor
  · intro hc
    have hbits : min (32 - s.bit_pos) n = n := by omega
    have hd1 : (UpdateBitCacheSafe { s with bit_pos := s.bit_pos + n }).pos =
        s.pos + (s.bit_pos + n) / 8 :=
      (UpdateBitCacheSafe_drain { s with bit_pos := s.bit_pos + n }).1
    have hd2 : (UpdateBitCacheSafe { s with bit_pos := s.bit_pos + n }).bit_pos =
        (s.bit_pos + n) % 8 :=
      (UpdateBitCacheSafe_drain { s with bit_pos := s.bit_pos + n }).2
    have hi := UpdateBitCacheSafeAux_inv
      ({ s with bit_pos := s.bit_pos + n } : ReadStream).bit_pos
      { s with bit_pos := s.bit_pos + n }
    have hi1 : (UpdateBitCacheSafe { s with bit_pos := s.bit_pos + n }).buf =
        s.buf := hi.1
    have hi2 : (UpdateBitCacheSafe { s with bit_pos := s.bit_pos + n }).endPos =
        s.endPos := hi.2.1
    have hi3 : (UpdateBitCacheSafe { s with bit_pos := s.bit_pos + n }).read_failed
        = s.read_failed := hi.2.2.1
    have hshift : (s.bit_pos + n) >>> 3 = (s.bit_pos + n) / 8 := by
      simp [Nat.shiftRight_eq_div_pow]
    simp only [ReadBitsChecked, if_neg hc, hbits]
    have hrem : ¬ 0 < n - n := by omega
    simp only [if_neg hrem]
    rw [hshift] at hc
    push_neg at hc
    refine ⟨by rw [hd2]; omega, by rw [hd1, hi2]; omega, hi2, hi1, hi3, ?_⟩
    unfold remBits
    rw [hd1, hd2, hi2]
    omega
  · intro hc
    simp [ReadBitsChecked, if_pos hc]

/-! ## Claim C3 — the RecoverTree arena-exhaustion guard is dead -/

/-- C3 fails on the code: tree deserialization can fail only because the
input stream ran out (the sticky read failure), never because the
serialized tree describes more than 521 nodes.  The C guard
`if (UNLIKELY(*node_num) >= kMaxTreeNodes)` compares
`__builtin_expect(!!(*node_num), 0) ∈ {0, 1}` against 521, so it can never
fire; a description with more than 521 nodes (e.g. a 523-node comb) is
accepted and, in C, written past the 521-entry arena. -/
theorem C3_arena_guard_dead (fuel : Nat) : ∀ (st : DecodeTreeState)
    (code bits : Nat) (s : ReadStream), s.bit_pos < 8 → s.pos ≤ s.endPos →
    ((RecoverTree fuel st code bits s).2.2.bit_pos < 8 ∧
     (RecoverTree fuel st code bits s).2.2.pos ≤
       (RecoverTree fuel st code bits s).2.2.endPos ∧
     remBits (RecoverTree fuel st code bits s).2.2 ≤ remBits s) ∧
    ((RecoverTree fuel st code bits s).1.isSome = true →
      remBits (RecoverTree fuel st code bits s).2.2 + 1 ≤ remBits s) ∧
    (remBits s + 1 ≤ fuel → (RecoverTree fuel st code bits s).1 = none →
      (RecoverTree fuel st code bits s).2.2.read_failed = true) := by
  induction fuel with
  | zero =>
    intro st code bits s hb hp
    refine ⟨⟨hb, hp, le_refl _⟩, by simp [RecoverTree], ?_⟩
    intro h
    omega
  | succ fuel ih =>
    intro st code bits s hb hp
    have hguard : ¬ (if st.nodes.length + 1 ≠ 0 then 1 else 0) ≥ kMaxTreeNodes := by
      simp [kMaxTreeNodes, kNumSymbols]
    rcases hrb : ReadBitChecked s with ⟨is_leaf, s1⟩
    have hspec := ReadBitChecked_spec s hb hp
    rw [hrb] at hspec
    dsimp only at hspec
    simp only [RecoverTree, if_neg hguard, hrb]
    by_cases hfail : s1.read_failed = true
    · simp only [if_pos hfail]
      have hfacts : s1.bit_pos < 8 ∧ s1.pos ≤ s1.endPos ∧ remBits s1 ≤ remBits s := by
        by_cases hend : s.endPos ≤ s.pos
        · have := hspec.1 hend
          rw [this]
          exact ⟨hb, hp, le_refl _⟩
        · have h2 := hspec.2 (by omega)
          have hr := h2.2.2.2.2.2
          exact ⟨h2.1, h2.2.1, by omega⟩
      exact ⟨⟨hfacts.1, hfacts.2.1, hfacts.2.2⟩, by simp, fun _ _ => hfail⟩
    · -- the single-bit read succeeded and the stream is not failed
      have hend : s.pos < s.endPos := by
        by_contra hcon
        have := hspec.1 (by omega)
        rw [this] at hfail
        simp at hfail
      have h2 := hspec.2 hend
      have hbit1 : s1.bit_pos < 8 := h2.1
      have hpos1 : s1.pos ≤ s1.endPos := h2.2.1
      have hrem1 : remBits s1 + 1 = remBits s := h2.2.2.2.2.2
      simp only [if_neg hfail]
      by_cases hleaf : is_leaf ≠ 0
      · simp only [if_pos hleaf]
        rcases hrb2 : ReadBitsChecked s1 kSymbolSize with ⟨symbol, s2⟩
        have hspec2 := ReadBitsChecked_spec s1 kSymbolSize hbit1 hpos1 (by simp [kSymbolSize])
        rw [hrb2] at hspec2
        dsimp only at hspec2
        by_cases hc2 : s1.endPos < s1.pos + (s1.bit_pos + kSymbolSize) >>> 3 ∨
            (s1.pos + (s1.bit_pos + kSymbolSize) >>> 3 = s1.endPos ∧
             (s1.bit_pos + kSymbolSize) % 8 ≠ 0)
        · have heq2 := hspec2.2 hc2
          have hs2f : s2.read_failed = true := by rw [heq2]
          have e1 : s2.bit_pos = s1.bit_pos := by rw [heq2]
          have e2 : s2.pos = s1.pos := by rw [heq2]
          have e3 : s2.endPos = s1.endPos := by rw [heq2]
          have e4 : remBits s2 = remBits s1 := by unfold remBits; rw [e1, e2, e3]
          simp only [if_pos hs2f]
          exact ⟨⟨by omega, by omega, by omega⟩, by simp, fun _ _ => hs2f⟩
        · have h3 := hspec2.1 hc2
          have hf2 : s2.read_failed = false := by
            rw [h3.2.2.2.2.1]
            simpa using hfail
          rw [if_neg (by simp [hf2])]
          dsimp only
          have hr9 := h3.2.2.2.2.2
          refine ⟨⟨h3.1, h3.2.1, by omega⟩, fun _ => by omega, ?_⟩
          intro _ hcon
          simp at hcon
      · have ihX : ∀ (ST : DecodeTreeState) (c b : Nat) (sx : ReadStream),
            sx.bit_pos < 8 → sx.pos ≤ sx.endPos →
            ∀ (oA : Option Nat) (stA : DecodeTreeState) (sA : ReadStream),
            RecoverTree fuel ST c b sx = (oA, stA, sA) →
            ((sA.bit_pos < 8 ∧ sA.pos ≤ sA.endPos ∧ remBits sA ≤ remBits sx) ∧
             (oA.isSome = true → remBits sA + 1 ≤ remBits sx) ∧
             (remBits sx + 1 ≤ fuel → oA = none → sA.read_failed = true)) := by
          intro ST c b sx hx1 hx2 oA stA sA hEq
          have h := ih ST c b sx hx1 hx2
          rw [hEq] at h
          exact h
        simp only [if_neg hleaf]
        split
        · rename_i stA sA heqA
          obtain ⟨⟨a1, a2, a3⟩, _, a5⟩ := ihX _ _ _ _ hbit1 hpos1 _ _ _ heqA
          dsimp only
          refine ⟨⟨a1, a2, by omega⟩, by simp, ?_⟩
          intro hfl _
          exact a5 (by omega) rfl
        · rename_i a stA sA heqA
          obtain ⟨⟨a1, a2, a3⟩, a4, _⟩ := ihX _ _ _ _ hbit1 hpos1 _ _ _ heqA
          have ha4 := a4 rfl
          split
          · rename_i stB sB heqB
            obtain ⟨⟨b1, b2, b3⟩, _, b5⟩ := ihX _ _ _ _ a1 a2 _ _ _ heqB
            dsimp only
            refine ⟨⟨b1, b2, by omega⟩, by simp, ?_⟩
            intro hfl _
            exact b5 (by omega) rfl
          · rename_i b stB sB heqB
            obtain ⟨⟨b1, b2, b3⟩, b4, _⟩ := ihX _ _ _ _ a1 a2 _ _ _ heqB
            have hb4 := b4 rfl
            dsimp only
            refine ⟨⟨b1, b2, by omega⟩, fun _ => by omega, ?_⟩
            intro _ hcon
            simp at hcon


/-- Witness: on the one-byte buffer `0x00` (eight branch bits, then the
input ends) RecoverTree fails, and the failure indeed carries the sticky
read-failure flag. -/
theorem C3_arena_guard_dead_witness :
    (RecoverTree 9 initDecodeTreeState 0 0 (InitReadStream [0] 1)).1 = none ∧
    (RecoverTree 9 initDecodeTreeState 0 0 (InitReadStream [0] 1)).2.2.read_failed
      = true :=
  ⟨by decide,
   (C3_arena_guard_dead 9 initDecodeTreeState 0 0 (InitReadStream [0] 1)
     (by decide) (by decide)).2.2 (by decide) (by decide)⟩

/-! ## Claim C8 — tie-breaking in the two-lightest-nodes scan -/

def cntAt (nodes : List EncodeNode) (k : Nat) : Nat := (nodes.getD k default).count

def liveAt (nodes : List EncodeNode) (k : Nat) : Prop := 0 < cntAt nodes k

theorem liveAt_lt (nodes : List EncodeNode) (k : Nat) (h : liveAt nodes k) :
    k < nodes.length := by
  by_contra hc
  have hd : nodes.getD k default = default := List.getD_eq_default _ _ (by omega)
  unfold liveAt cntAt at h
  rw [hd] at h
  simp [Inhabited.default] at h

theorem step_none_none (nodes : List EncodeNode) (k : Nat) :
    FindTwoLightestStep nodes (none, none) k =
      if 0 < cntAt nodes k then (some k, none) else (none, none) := rfl

theorem step_some_none (nodes : List EncodeNode) (i1 k : Nat) :
    FindTwoLightestStep nodes (some i1, none) k =
      if 0 < cntAt nodes k then
        (if cntAt nodes k ≤ cntAt nodes i1 then (some k, some i1)
         else (some i1, some k))
      else (some i1, none) := rfl

theorem step_some_some (nodes : List EncodeNode) (i1 i2 k : Nat) :
    FindTwoLightestStep nodes (some i1, some i2) k =
      if 0 < cntAt nodes k then
        (if cntAt nodes k ≤ cntAt nodes i1 then (some k, some i1)
         else if cntAt nodes k ≤ cntAt nodes i2 then (some i1, some k)
         else (some i1, some i2))
      else (some i1, some i2) := rfl

theorem FindTwoLightest_fold_inv (nodes : List EncodeNode) (m : Nat) :
    ((∀ k, k < m → ¬ liveAt nodes k) ∧
      (List.range m).foldl (FindTwoLightestStep nodes) (none, none) = (none, none)) ∨
    (∃ l, l < m ∧ liveAt nodes l ∧ (∀ k, k < m → liveAt nodes k → k = l) ∧
      (List.range m).foldl (FindTwoLightestStep nodes) (none, none) = (some l, none)) ∨
    (∃ i j, (List.range m).foldl (FindTwoLightestStep nodes) (none, none) = (some i, some j) ∧
      i < m ∧ j < m ∧ i ≠ j ∧ liveAt nodes i ∧ liveAt nodes j ∧
      (∀ k, k < m → liveAt nodes k → cntAt nodes i ≤ cntAt nodes k) ∧
      (∀ k, k < m → liveAt nodes k → i < k → cntAt nodes i < cntAt nodes k) ∧
      (∀ k, k < m → liveAt nodes k → k ≠ i → cntAt nodes j ≤ cntAt nodes k) ∧
      (∀ k, k < m → liveAt nodes k → k ≠ i → j < k → cntAt nodes j < cntAt nodes k)) := by
  induction m with
  | zero => left; exact ⟨by omega, rfl⟩
  | succ m ih =>
    rw [List.range_succ, List.foldl_append, List.foldl_cons, List.foldl_nil]
    by_cases hm : liveAt nodes m
    · have hm' : 0 < cntAt nodes m := hm
      rcases ih with ⟨hdead, hfold⟩ | ⟨l, hl, hlive, huniq, hfold⟩ |
        ⟨i, j, hfold, hi, hj, hij, hli, hlj, h1, h2, h3, h4⟩ <;> rw [hfold]
      · rw [step_none_none, if_pos hm']
        right; left
        refine ⟨m, by omega, hm, ?_, rfl⟩
        intro k hk hlk
        by_contra hne
        exact hdead k (by omega) hlk
      · rw [step_some_none, if_pos hm']
        right; right
        have hlm : l < m := by
          rcases Nat.lt_or_ge l m with h | h
          · exact h
          · omega
        by_cases hc : cntAt nodes m ≤ cntAt nodes l
        · rw [if_pos hc]
          refine ⟨m, l, rfl, by omega, by omega, by omega, hm, hlive, ?_, ?_, ?_, ?_⟩
          · intro k hk hlk
            rcases Nat.lt_or_ge k m with h | h
            · have hkl := huniq k h hlk
              subst hkl
              exact hc
            · have hkm : k = m := by omega
              subst hkm
              exact le_refl _
          · intro k hk hlk hgt
            omega
          · intro k hk hlk hne
            rcases Nat.lt_or_ge k m with h | h
            · have hkl := huniq k h hlk
              subst hkl
              exact le_refl _
            · omega
          · intro k hk hlk hne hgt
            rcases Nat.lt_or_ge k m with h | h
            · have hkl := huniq k h hlk
              omega
            · omega
        · rw [if_neg hc]
          refine ⟨l, m, rfl, by omega, by omega, by omega, hlive, hm, ?_, ?_, ?_, ?_⟩
          · intro k hk hlk
            rcases Nat.lt_or_ge k m with h | h
            · have := huniq k h hlk; subst this; exact le_refl _
            · have : k = m := by omega
              subst this; omega
          · intro k hk hlk hgt
            rcases Nat.lt_or_ge k m with h | h
            · have := huniq k h hlk; omega
            · have : k = m := by omega
              subst this; omega
          · intro k hk hlk hne
            rcases Nat.lt_or_ge k m with h | h
            · have := huniq k h hlk; omega
            · have : k = m := by omega
              subst this; exact le_refl _
          · intro k hk hlk hne hgt
            rcases Nat.lt_or_ge k m with h | h
            · have := huniq k h hlk; omega
            · omega
      · rw [step_some_some, if_pos hm']
        right; right
        by_cases hc1 : cntAt nodes m ≤ cntAt nodes i
        · rw [if_pos hc1]
          refine ⟨m, i, rfl, by omega, by omega, by omega, hm, hli, ?_, ?_, ?_, ?_⟩
          · intro k hk hlk
            rcases Nat.lt_or_ge k m with h | h
            · have := h1 k h hlk; omega
            · have : k = m := by omega
              subst this; exact le_refl _
          · intro k hk hlk hgt
            omega
          · intro k hk hlk hne
            rcases Nat.lt_or_ge k m with h | h
            · exact h1 k h hlk
            · omega
          · intro k hk hlk hne hgt
            rcases Nat.lt_or_ge k m with h | h
            · exact h2 k h hlk hgt
            · omega
        · rw [if_neg hc1]
          by_cases hc2 : cntAt nodes m ≤ cntAt nodes j
          · rw [if_pos hc2]
            refine ⟨i, m, rfl, by omega, by omega, by omega, hli, hm, ?_, ?_, ?_, ?_⟩
            · intro k hk hlk
              rcases Nat.lt_or_ge k m with h | h
              · exact h1 k h hlk
              · have : k = m := by omega
                subst this; omega
            · intro k hk hlk hgt
              rcases Nat.lt_or_ge k m with h | h
              · exact h2 k h hlk hgt
              · have : k = m := by omega
                subst this; omega
            · intro k hk hlk hne
              rcases Nat.lt_or_ge k m with h | h
              · have := h3 k h hlk hne; omega
              · have : k = m := by omega
                subst this; exact le_refl _
            · intro k hk hlk hne hgt
              rcases Nat.lt_or_ge k m with h | h
              · have := h3 k h hlk hne; omega
              · omega
          · rw [if_neg hc2]
            refine ⟨i, j, rfl, by omega, by omega, hij, hli, hlj, ?_, ?_, ?_, ?_⟩
            · intro k hk hlk
              rcases Nat.lt_or_ge k m with h | h
              · exact h1 k h hlk
              · have : k = m := by omega
                subst this; omega
            · intro k hk hlk hgt
              rcases Nat.lt_or_ge k m with h | h
              · exact h2 k h hlk hgt
              · have : k = m := by omega
                subst this; omega
            · intro k hk hlk hne
              rcases Nat.lt_or_ge k m with h | h
              · exact h3 k h hlk hne
              · have : k = m := by omega
                subst this; omega
            · intro k hk hlk hne hgt
              rcases Nat.lt_or_ge k m with h | h
              · exact h4 k h hlk hne hgt
              · have : k = m := by omega
                subst this; omega
    · have hm' : ¬ 0 < cntAt nodes m := hm
      rcases ih with ⟨hdead, hfold⟩ | ⟨l, hl, hlive, huniq, hfold⟩ |
        ⟨i, j, hfold, hi, hj, hij, hli, hlj, h1, h2, h3, h4⟩ <;> rw [hfold]
      · rw [step_none_none, if_neg hm']
        left
        refine ⟨?_, rfl⟩
        intro k hk
        rcases Nat.lt_or_ge k m with h | h
        · exact hdead k h
        · have : k = m := by omega
          subst this; exact hm
      · rw [step_some_none, if_neg hm']
        right; left
        refine ⟨l, by omega, hlive, ?_, rfl⟩
        intro k hk hlk
        rcases Nat.lt_or_ge k m with h | h
        · exact huniq k h hlk
        · have : k = m := by omega
          subst this; exact absurd hlk hm
      · rw [step_some_some, if_neg hm']
        right; right
        refine ⟨i, j, rfl, by omega, by omega, hij, hli, hlj, ?_, ?_, ?_, ?_⟩
        · intro k hk hlk
          rcases Nat.lt_or_ge k m with h | h
          · exact h1 k h hlk
          · have : k = m := by omega
            subst this; exact absurd hlk hm
        · intro k hk hlk hgt
          rcases Nat.lt_or_ge k m with h | h
          · exact h2 k h hlk hgt
          · have : k = m := by omega
            subst this; exact absurd hlk hm
        · intro k hk hlk hne
          rcases Nat.lt_or_ge k m with h | h
          · exact h3 k h hlk hne
          · have : k = m := by omega
            subst this; exact absurd hlk hm
        · intro k hk hlk hne hgt
          rcases Nat.lt_or_ge k m with h | h
          · exact h4 k h hlk hne hgt
          · have : k = m := by omega
            subst this; exact absurd hlk hm


/-- Three live nodes with equal counts. -/
def c8Nodes : List EncodeNode :=
  [⟨none, none, 1, 0⟩, ⟨none, none, 1, 1⟩, ⟨none, none, 1, 2⟩]

/-- C8, counterexample: on three live nodes of equal count the scan
selects `node_1 = index 2` and `node_2 = index 1` — the pair of
*last*-encountered nodes; a first-encountered-wins tie break would select
indices 0 and 1.  This falsifies "the tie is broken in favor of the
first-encountered node in scan order". -/
theorem C8_tie_break_counterexample :
    FindTwoLightest c8Nodes = (some 2, some 1) ∧
    FindTwoLightest c8Nodes ≠ (some 0, some 1) ∧
    FindTwoLightest c8Nodes ≠ (some 1, some 0) := by decide

/-- C8, amended: each merge step does select two live nodes with the two
smallest counts, but equal-count ties are broken in favor of the
*last*-encountered node in scan order (the `<=` comparisons let an equal
later node displace the current choice): `node_1` is the last live index
of minimal count, and `node_2` the last live index of minimal count among
the remaining nodes. -/
theorem C8_two_lightest_amended (nodes : List EncodeNode)
    (a b : Nat) (hab : a ≠ b) (ha : liveAt nodes a) (hb : liveAt nodes b) :
    ∃ i j, FindTwoLightest nodes = (some i, some j) ∧ i ≠ j ∧
      liveAt nodes i ∧ liveAt nodes j ∧
      (∀ k, liveAt nodes k → cntAt nodes i ≤ cntAt nodes k) ∧
      (∀ k, liveAt nodes k → i < k → cntAt nodes i < cntAt nodes k) ∧
      (∀ k, liveAt nodes k → k ≠ i → cntAt nodes j ≤ cntAt nodes k) ∧
      (∀ k, liveAt nodes k → k ≠ i → j < k → cntAt nodes j < cntAt nodes k) := by
  have hinv := FindTwoLightest_fold_inv nodes nodes.length
  have hFL : FindTwoLightest nodes =
      (List.range nodes.length).foldl (FindTwoLightestStep nodes) (none, none) := rfl
  have haL := liveAt_lt nodes a ha
  have hbL := liveAt_lt nodes b hb
  rcases hinv with ⟨hdead, _⟩ | ⟨l, _, _, huniq, _⟩ |
    ⟨i, j, hfold, _, _, hij, hli, hlj, h1, h2, h3, h4⟩
  · exact absurd ha (hdead a haL)
  · have ea := huniq a haL ha
    have eb := huniq b hbL hb
    omega
  · exact ⟨i, j, by rw [hFL, hfold], hij, hli, hlj,
      fun k hk => h1 k (liveAt_lt _ _ hk) hk,
      fun k hk => h2 k (liveAt_lt _ _ hk) hk,
      fun k hk => h3 k (liveAt_lt _ _ hk) hk,
      fun k hk => h4 k (liveAt_lt _ _ hk) hk⟩

/-- Witness for C8's amended theorem on the three-equal-nodes arena. -/
theorem C8_two_lightest_amended_witness :
    ∃ i j, FindTwoLightest c8Nodes = (some i, some j) ∧ i ≠ j := by
  obtain ⟨i, j, hf, hij, _⟩ :=
    C8_two_lightest_amended c8Nodes 0 1 (by decide)
      (by unfold liveAt cntAt; decide) (by unfold liveAt cntAt; decide)
  exact ⟨i, j, hf, hij⟩

/-! ## Write-stream invariants -/

theorem byteAt_set_ne (buf : List Nat) (j v i : Nat) (h : i ≠ j) :
    byteAt (buf.set j v) i = byteAt buf i := by
  unfold byteAt
  rcases Nat.lt_or_ge i buf.length with hi | hi
  · rw [List.getD_eq_getElem _ _ (by simpa using hi),
      List.getD_eq_getElem _ _ hi]
    exact List.getElem_set_of_ne (by omega) _ _
  · rw [List.getD_eq_default _ _ (by simpa using hi),
      List.getD_eq_default _ _ hi]

theorem byteAt_set_eq (buf : List Nat) (j v : Nat) (h : j < buf.length) :
    byteAt (buf.set j v) j = v := by
  unfold byteAt
  rw [List.getD_eq_getElem _ _ (by simpa using h)]
  simp

/-- Coarse facts about the flush loop: end pointer, buffer length and
bytes before the starting cursor are preserved; the cursor only moves
forward and never past the end; a set failure flag is sticky. -/
theorem FlushBitCacheAux_coarse (fuel : Nat) : ∀ (buf : List Nat) (s : WriteStream),
    (FlushBitCacheAux fuel buf s).2.endPos = s.endPos ∧
    (FlushBitCacheAux fuel buf s).1.length = buf.length ∧
    s.pos ≤ (FlushBitCacheAux fuel buf s).2.pos ∧
    (s.pos ≤ s.endPos → (FlushBitCacheAux fuel buf s).2.pos ≤ s.endPos) ∧
    ((FlushBitCacheAux fuel buf s).2.write_failed = s.write_failed ∨
      (FlushBitCacheAux fuel buf s).2.write_failed = true) ∧
    (∀ i, i < s.pos → byteAt (FlushBitCacheAux fuel buf s).1 i = byteAt buf i) := by
  induction fuel with
  | zero =>
    intro buf s
    exact ⟨rfl, rfl, le_refl _, fun h => h, Or.inl rfl, fun i _ => rfl⟩
  | succ fuel ih =>
    intro buf s
    simp only [FlushBitCacheAux]
    by_cases h8 : 8 ≤ s.bit_pos
    · rw [if_pos h8]
      by_cases hend : s.endPos ≤ s.pos
      · rw [if_pos hend]
        exact ⟨rfl, by simp, le_refl _, fun h => h, Or.inr rfl, fun i _ => rfl⟩
      · rw [if_neg hend]
        obtain ⟨e1, e2, e3, e4, e5, e6⟩ := ih (buf.set s.pos (s.bit_cache % 256))
          { s with
            bit_cache := s.bit_cache >>> 8
            bit_pos := s.bit_pos - 8
            pos := s.pos + 1 }
        dsimp only at e1 e2 e3 e4 e5 e6
        refine ⟨e1, by rw [e2]; simp, by omega, fun h => e4 (by omega), e5, ?_⟩
        intro i hi
        rw [e6 i (by omega), byteAt_set_ne _ _ _ _ (by omega)]
    · rw [if_neg h8]
      exact ⟨rfl, rfl, le_refl _, fun h => h, Or.inl rfl, fun i _ => rfl⟩

/-- With enough fuel, an un-failed flush result has a bit position below
8. -/
theorem FlushBitCacheAux_bp (fuel : Nat) : ∀ (buf : List Nat) (s : WriteStream),
    s.bit_pos ≤ 8 * fuel + 7 →
    (FlushBitCacheAux fuel buf s).2.write_failed = false →
    (FlushBitCacheAux fuel buf s).2.bit_pos < 8 := by
  induction fuel with
  | zero =>
    intro buf s h hf
    show s.bit_pos < 8
    omega
  | succ fuel ih =>
    intro buf s h hf
    simp only [FlushBitCacheAux] at hf ⊢
    by_cases h8 : 8 ≤ s.bit_pos
    · rw [if_pos h8] at hf ⊢
      by_cases hend : s.endPos ≤ s.pos
      · rw [if_pos hend] at hf
        simp at hf
      · rw [if_neg hend] at hf ⊢
        exact ih _ _ (by simp only []; omega) hf
    · rw [if_neg h8]
      show s.bit_pos < 8
      omega

/-- The flush loop when there is room for every byte it will emit: the
cursor advances by `bit_pos / 8`, the flag is untouched, and the emitted
bytes are the little-endian bytes of the cache. -/
theorem FlushBitCacheAux_drain (fuel : Nat) : ∀ (buf : List Nat) (s : WriteStream),
    s.bit_pos ≤ 8 * fuel + 7 →
    s.pos + s.bit_pos / 8 ≤ s.endPos →
    s.endPos ≤ buf.length →
    (FlushBitCacheAux fuel buf s).2 =
      { s with
        pos := s.pos + s.bit_pos / 8
        bit_pos := s.bit_pos % 8
        bit_cache := s.bit_cache >>> (8 * (s.bit_pos / 8)) } ∧
    (∀ i, byteAt (FlushBitCacheAux fuel buf s).1 i =
      if s.pos ≤ i ∧ i < s.pos + s.bit_pos / 8 then
        (s.bit_cache >>> (8 * (i - s.pos))) % 256
      else byteAt buf i) := by
  induction fuel with
  | zero =>
    intro buf s h hroom hlen
    have hb : s.bit_pos < 8 := by omega
    simp only [FlushBitCacheAux]
    constructor
    · rw [Nat.div_eq_of_lt hb, Nat.mod_eq_of_lt hb]
      simp
    · intro i
      rw [Nat.div_eq_of_lt hb]
      simp only [Nat.add_zero]
      rw [if_neg (by omega)]
  | succ fuel ih =>
    intro buf s h hroom hlen
    by_cases h8 : 8 ≤ s.bit_pos
    · have hend : ¬ s.endPos ≤ s.pos := by omega
      simp only [FlushBitCacheAux, if_pos h8, if_neg hend]
      obtain ⟨e1, e2⟩ := ih (buf.set s.pos (s.bit_cache % 256))
        { s with
          bit_cache := s.bit_cache >>> 8
          bit_pos := s.bit_pos - 8
          pos := s.pos + 1 }
        (by simp only []; omega) (by simp only []; omega) (by simp; omega)
      have hpos : s.pos + 1 + (s.bit_pos - 8) / 8 = s.pos + s.bit_pos / 8 := by
        omega
      have hbp : (s.bit_pos - 8) % 8 = s.bit_pos % 8 := by omega
      have hc : (s.bit_cache >>> 8) >>> (8 * ((s.bit_pos - 8) / 8)) =
          s.bit_cache >>> (8 * (s.bit_pos / 8)) := by
        rw [show 8 * (s.bit_pos / 8) = 8 + 8 * ((s.bit_pos - 8) / 8) from by omega,
          Nat.shiftRight_add]
      constructor
      · rw [e1]
        dsimp only
        rw [hpos, hbp, hc]
      · intro i
        rw [e2 i]
        simp only []
        by_cases hlo : s.pos + 1 ≤ i ∧ i < s.pos + 1 + (s.bit_pos - 8) / 8
        · rw [if_pos hlo, if_pos (by omega)]
          rw [show 8 * (i - s.pos) = 8 + 8 * (i - (s.pos + 1)) from by omega,
            Nat.shiftRight_add]
        · rw [if_neg hlo]
          by_cases heq : i = s.pos
          · subst heq
            rw [byteAt_set_eq _ _ _ (by omega), if_pos (by omega)]
            simp
          · rw [byteAt_set_ne _ _ _ _ heq, if_neg (by omega)]
    · have hb : s.bit_pos < 8 := by omega
      simp only [FlushBitCacheAux, if_neg h8]
      constructor
      · rw [Nat.div_eq_of_lt hb, Nat.mod_eq_of_lt hb]
        simp
      · intro i
        rw [Nat.div_eq_of_lt hb]
        rw [if_neg (by omega)]

/-- The coarse write contract: end pointer and buffer length preserved,
cursor monotone and bounded by the end, failure flag only ever set, bytes
before the starting cursor untouched. -/
def WCoarse (buf buf' : List Nat) (s s' : WriteStream) : Prop :=
  s'.endPos = s.endPos ∧ buf'.length = buf.length ∧ s.pos ≤ s'.pos ∧
  (s.pos ≤ s.endPos → s'.pos ≤ s.endPos) ∧
  (s'.write_failed = s.write_failed ∨ s'.write_failed = true) ∧
  (∀ i, i < s.pos → byteAt buf' i = byteAt buf i)

theorem WCoarse_refl (buf : List Nat) (s : WriteStream) : WCoarse buf buf s s :=
  ⟨rfl, rfl, le_refl _, fun h => h, Or.inl rfl, fun _ _ => rfl⟩

theorem WCoarse_trans {b1 b2 b3 : List Nat} {s1 s2 s3 : WriteStream}
    (h12 : WCoarse b1 b2 s1 s2) (h23 : WCoarse b2 b3 s2 s3) :
    WCoarse b1 b3 s1 s3 := by
  obtain ⟨a1, a2, a3, a4, a5, a6⟩ := h12
  obtain ⟨c1, c2, c3, c4, c5, c6⟩ := h23
  refine ⟨by omega, by omega, by omega, by omega, ?_, ?_⟩
  · rcases c5 with c5 | c5
    · rw [c5]; exact a5
    · exact Or.inr c5
  · intro i hi
    rw [c6 i (by omega), a6 i hi]

theorem FlushBitCache_WCoarse (buf : List Nat) (s : WriteStream) :
    WCoarse buf (FlushBitCache buf s).1 s (FlushBitCache buf s).2 := by
  obtain ⟨e1, e2, e3, e4, e5, e6⟩ := FlushBitCacheAux_coarse s.bit_pos buf s
  exact ⟨e1, e2, e3, e4, e5, e6⟩

theorem WriteBits_WCoarse (buf : List Nat) (s : WriteStream) (x bits : Nat) :
    WCoarse buf (WriteBits buf s x bits).1 s (WriteBits buf s x bits).2 := by
  unfold WriteBits
  dsimp only
  split
  · refine @WCoarse_trans buf
      ((FlushBitCache buf
        { s with
          bit_cache := s.bit_cache ||| x <<< s.bit_pos % 2 ^ 32
          bit_pos := s.bit_pos + min (32 - s.bit_pos) bits }).1) _ s
      ((FlushBitCache buf
        { s with
          bit_cache := s.bit_cache ||| x <<< s.bit_pos % 2 ^ 32
          bit_pos := s.bit_pos + min (32 - s.bit_pos) bits }).2) _ ?_ ?_
    · exact FlushBitCache_WCoarse _ _
    · exact FlushBitCache_WCoarse _ _
  · exact FlushBitCache_WCoarse _ _

theorem ForceFlush_WCoarse (buf : List Nat) (s : WriteStream) :
    WCoarse buf (ForceFlushBitCache buf s).1 s (ForceFlushBitCache buf s).2 := by
  unfold ForceFlushBitCache
  dsimp only
  have h1 := FlushBitCache_WCoarse buf s
  rcases hf : FlushBitCache buf s with ⟨buf1, s1⟩
  rw [hf] at h1
  dsimp only
  split
  · split
    · dsimp only
      exact WCoarse_trans h1
        ⟨rfl, rfl, le_refl _, fun h => h, Or.inr rfl, fun _ _ => rfl⟩
    · rename_i hlt hend
      dsimp only
      refine WCoarse_trans h1 ⟨rfl, by simp,
        by show s1.pos ≤ s1.pos + 1; omega,
        fun _ => by show s1.pos + 1 ≤ s1.endPos; omega, Or.inl rfl, ?_⟩
      intro i hi
      have hi2 : i < s1.pos := hi
      exact byteAt_set_ne _ _ _ _ (by omega)
  · exact h1

/-- A ForceFlush that does not fail leaves the stream byte aligned. -/
theorem ForceFlush_aligned (buf : List Nat) (s : WriteStream)
    (h : (ForceFlushBitCache buf s).2.write_failed = false) :
    (ForceFlushBitCache buf s).2.bit_pos = 0 := by
  have hbp : (FlushBitCache buf s).2.write_failed = false →
      (FlushBitCache buf s).2.bit_pos < 8 :=
    FlushBitCacheAux_bp s.bit_pos buf s (by omega)
  unfold ForceFlushBitCache at h ⊢
  dsimp only at h ⊢
  rcases hf : FlushBitCache buf s with ⟨buf1, s1⟩
  rw [hf] at h hbp
  dsimp only at h hbp ⊢
  by_cases h0 : 0 < s1.bit_pos
  · rw [if_pos h0] at h ⊢
    by_cases hend : s1.endPos ≤ s1.pos
    · rw [if_pos hend] at h
      simp at h
    · rw [if_neg hend]
  · rw [if_neg h0]
    show s1.bit_pos = 0
    omega

/-- ForceFlush on an already byte-aligned stream is the identity. -/
theorem ForceFlush_bp0 (buf : List Nat) (s : WriteStream) (h : s.bit_pos = 0) :
    ForceFlushBitCache buf s = (buf, s) := by
  unfold ForceFlushBitCache FlushBitCache
  rw [h]
  dsimp only [FlushBitCacheAux]
  rw [if_neg (by omega)]

theorem foldl_set_length (idxf vals : Nat → Nat) (L : List Nat) :
    ∀ buf : List Nat,
    (L.foldl (fun b i => b.set (idxf i) (vals i)) buf).length = buf.length := by
  induction L with
  | nil => intro buf; rfl
  | cons a L ih =>
    intro buf
    rw [List.foldl_cons, ih]
    simp

theorem foldl_set_low (idxf vals : Nat → Nat) (L : List Nat) (p : Nat)
    (hL : ∀ i ∈ L, p ≤ idxf i) : ∀ (buf : List Nat) (j : Nat), j < p →
    byteAt (L.foldl (fun b i => b.set (idxf i) (vals i)) buf) j = byteAt buf j := by
  induction L with
  | nil => intro buf j hj; rfl
  | cons a L ih =>
    intro buf j hj
    rw [List.foldl_cons, ih (fun i hi => hL i (by simp [hi])) _ j hj,
      byteAt_set_ne _ _ _ _ (by have := hL a (by simp); omega)]

theorem writeBytes_length (buf : List Nat) (p : Nat) (l : List Nat) :
    (writeBytes buf p l).length = buf.length :=
  foldl_set_length _ _ _ _

theorem writeBytes_low (buf : List Nat) (p : Nat) (l : List Nat) :
    ∀ j, j < p → byteAt (writeBytes buf p l) j = byteAt buf j :=
  foldl_set_low _ _ _ p (by intro i hi; simp at hi; omega) buf

theorem FlushBitCache_bump (buf : List Nat) (s : WriteStream) (c b : Nat)
    (hroom : s.pos + b / 8 ≤ s.endPos) (hlen : s.endPos ≤ buf.length) :
    (FlushBitCache buf { s with bit_cache := c, bit_pos := b }).2 =
      { s with
        pos := s.pos + b / 8
        bit_pos := b % 8
        bit_cache := c >>> (8 * (b / 8)) } ∧
    (FlushBitCache buf { s with bit_cache := c, bit_pos := b }).1.length =
      buf.length ∧
    (∀ i, byteAt (FlushBitCache buf { s with bit_cache := c, bit_pos := b }).1 i =
      if s.pos ≤ i ∧ i < s.pos + b / 8 then (c >>> (8 * (i - s.pos))) % 256
      else byteAt buf i) := by
  have h := FlushBitCacheAux_drain
    ({ s with bit_cache := c, bit_pos := b } : WriteStream).bit_pos buf
    { s with bit_cache := c, bit_pos := b } (by dsimp only; omega)
    (by dsimp only; exact hroom) hlen
  have hlen2 := (FlushBitCacheAux_coarse
    ({ s with bit_cache := c, bit_pos := b } : WriteStream).bit_pos buf
    { s with bit_cache := c, bit_pos := b }).2.1
  exact ⟨h.1, hlen2, h.2⟩

theorem WriteBits_aligned (buf : List Nat) (s : WriteStream) (x nb : Nat)
    (hbp : s.bit_pos = 0) (hcache : s.bit_cache = 0) (hnb1 : 1 ≤ nb)
    (hnb4 : nb ≤ 4) (hx : x < 2 ^ (8 * nb)) (hroom : s.pos + nb ≤ s.endPos)
    (hlen : s.endPos ≤ buf.length) :
    (WriteBits buf s x (8 * nb)).2 =
      { s with pos := s.pos + nb, bit_cache := 0 } ∧
    (WriteBits buf s x (8 * nb)).1.length = buf.length ∧
    (∀ i, byteAt (WriteBits buf s x (8 * nb)).1 i =
      if s.pos ≤ i ∧ i < s.pos + nb then (x >>> (8 * (i - s.pos))) % 256
      else byteAt buf i) := by
  have hx32 : x < 2 ^ 32 :=
    lt_of_lt_of_le hx (Nat.pow_le_pow_right (by norm_num) (by omega))
  have hC : s.bit_cache ||| (x <<< s.bit_pos) % 2 ^ 32 = x := by
    rw [hcache, hbp, Nat.shiftLeft_zero, Nat.mod_eq_of_lt hx32, Nat.zero_or]
  have hB : s.bit_pos + min (32 - s.bit_pos) (8 * nb) = 8 * nb := by omega
  have hBdiv : (s.bit_pos + min (32 - s.bit_pos) (8 * nb)) / 8 = nb := by omega
  have hBmod : (s.bit_pos + min (32 - s.bit_pos) (8 * nb)) % 8 = 0 := by omega
  have hshift0 : x >>> (8 * nb) = 0 := by
    rw [Nat.shiftRight_eq_div_pow]
    exact Nat.div_eq_of_lt hx
  obtain ⟨e1, e2, e3⟩ := FlushBitCache_bump buf s
    (s.bit_cache ||| (x <<< s.bit_pos) % 2 ^ 32)
    (s.bit_pos + min (32 - s.bit_pos) (8 * nb)) (by omega) hlen
  have hrem : ¬ (0 < 8 * nb - min (32 - s.bit_pos) (8 * nb) ∧
      ¬ (FlushBitCache buf
        { s with
          bit_cache := s.bit_cache ||| (x <<< s.bit_pos) % 2 ^ 32
          bit_pos := s.bit_pos + min (32 - s.bit_pos) (8 * nb) }).2.write_failed
        = true) := by
    intro hcon
    omega
  unfold WriteBits
  dsimp only
  rw [if_neg hrem]
  refine ⟨?_, e2, ?_⟩
  · rw [e1, hBdiv, hBmod, hC, hshift0, ← hbp]
  · intro i
    rw [e3 i, hBdiv, hC]

theorem WriteBits_pos8 (buf : List Nat) (s : WriteStream) (x nb : Nat)
    (hbp : s.bit_pos = 0) (hnb1 : 1 ≤ nb) (hnb4 : nb ≤ 4)
    (hroom : s.pos + nb ≤ s.endPos) (hlen : s.endPos ≤ buf.length) :
    ((WriteBits buf s x (8 * nb)).2.pos = s.pos + nb ∧
     (WriteBits buf s x (8 * nb)).2.bit_pos = 0 ∧
     (WriteBits buf s x (8 * nb)).2.endPos = s.endPos ∧
     (WriteBits buf s x (8 * nb)).2.write_failed = s.write_failed) ∧
    (WriteBits buf s x (8 * nb)).1.length = buf.length ∧
    (∀ i, i < s.pos ∨ s.pos + nb ≤ i →
      byteAt (WriteBits buf s x (8 * nb)).1 i = byteAt buf i) := by
  have hBdiv : (s.bit_pos + min (32 - s.bit_pos) (8 * nb)) / 8 = nb := by omega
  have hBmod : (s.bit_pos + min (32 - s.bit_pos) (8 * nb)) % 8 = 0 := by omega
  obtain ⟨e1, e2, e3⟩ := FlushBitCache_bump buf s
    (s.bit_cache ||| (x <<< s.bit_pos) % 2 ^ 32)
    (s.bit_pos + min (32 - s.bit_pos) (8 * nb)) (by omega) hlen
  have hrem : ¬ (0 < 8 * nb - min (32 - s.bit_pos) (8 * nb) ∧
      ¬ (FlushBitCache buf
        { s with
          bit_cache := s.bit_cache ||| (x <<< s.bit_pos) % 2 ^ 32
          bit_pos := s.bit_pos + min (32 - s.bit_pos) (8 * nb) }).2.write_failed
        = true) := by
    intro hcon
    omega
  unfold WriteBits
  dsimp only
  rw [if_neg hrem]
  refine ⟨⟨?_, ?_, ?_, ?_⟩, e2, ?_⟩
  · rw [e1]; dsimp only; omega
  · rw [e1]; dsimp only; omega
  · rw [e1]
  · rw [e1]
  · intro i hi
    rw [e3 i, if_neg (by omega)]

theorem WCoarse_cont (buf buf1 : List Nat) (s s1 : WriteStream)
    (k : List Nat → WriteStream → List Nat × WriteStream)
    (h1 : WCoarse buf buf1 s s1)
    (hk : ∀ b t, WCoarse b (k b t).1 t (k b t).2) :
    WCoarse buf (k buf1 s1).1 s (k buf1 s1).2 :=
  WCoarse_trans h1 (hk buf1 s1)

theorem WriteBits2_WCoarse (buf : List Nat) (s : WriteStream) (c b v n : Nat) :
    WCoarse buf
      (WriteBits (WriteBits buf s c b).1 (WriteBits buf s c b).2 v n).1 s
      (WriteBits (WriteBits buf s c b).1 (WriteBits buf s c b).2 v n).2 :=
  WCoarse_trans (WriteBits_WCoarse buf s c b)
    (WriteBits_WCoarse (WriteBits buf s c b).1 (WriteBits buf s c b).2 v n)

theorem StoreTree_WCoarse (fuel : Nat) : ∀ (nodes : List EncodeNode) (idx : Nat)
    (symbols : List SymbolInfo) (buf : List Nat) (s : WriteStream)
    (code bits : Nat),
    WCoarse buf (StoreTree fuel nodes idx symbols buf s code bits).2.1 s
      (StoreTree fuel nodes idx symbols buf s code bits).2.2 := by
  induction fuel with
  | zero => intro nodes idx symbols buf s code bits; exact WCoarse_refl _ _
  | succ fuel ih =>
    intro nodes idx symbols buf s code bits
    simp only [StoreTree]
    split
    · -- leaf node
      have w1 := WriteBits_WCoarse buf s 1 1
      rcases h1 : WriteBits buf s 1 1 with ⟨buf1, s1⟩
      rw [h1] at w1
      dsimp only
      split
      · exact w1
      · have w2 := WriteBits_WCoarse buf1 s1
          (nodes.getD idx default).symbol.toNat kSymbolSize
        rcases h2 : WriteBits buf1 s1
            (nodes.getD idx default).symbol.toNat kSymbolSize with ⟨buf2, s2⟩
        rw [h2] at w2
        dsimp only
        split
        · exact WCoarse_trans w1 w2
        · exact WCoarse_trans w1 w2
    · -- branch node
      have w1 := WriteBits_WCoarse buf s 0 1
      rcases h1 : WriteBits buf s 0 1 with ⟨buf1, s1⟩
      rw [h1] at w1
      dsimp only
      split
      · exact w1
      · have wA := ih nodes ((nodes.getD idx default).child_a.getD 0)
          symbols buf1 s1 code (bits + 1)
        rcases hA : StoreTree fuel nodes ((nodes.getD idx default).child_a.getD 0)
            symbols buf1 s1 code (bits + 1) with ⟨symA, bufA, sA⟩
        rw [hA] at wA
        dsimp only
        exact WCoarse_trans w1 (WCoarse_trans wA
          (ih nodes ((nodes.getD idx default).child_b.getD 0) symA bufA sA
            ((code + 1 <<< bits) % 2 ^ 32) (bits + 1)))

theorem MakeTree_WCoarse (sym : List SymbolInfo) (buf : List Nat)
    (s : WriteStream) :
    WCoarse buf (MakeTree sym buf s).2.1 s (MakeTree sym buf s).2.2 := by
  unfold MakeTree
  dsimp only
  split
  · exact WCoarse_refl _ _
  · rcases hml : MakeTreeLoop (initialLeaves sym) (initialLeaves sym).length none
      with ⟨nodes, root⟩
    cases root with
    | none => exact StoreTree_WCoarse _ _ _ _ _ _ _ _
    | some r => exact StoreTree_WCoarse _ _ _ _ _ _ _ _

theorem EmitLoop_WCoarse (inl : List Nat) (fuel : Nat) : ∀ (k : Nat)
    (symbols : List SymbolInfo) (buf : List Nat) (s : WriteStream),
    WCoarse buf (EmitLoop inl fuel k symbols buf s).1 s
      (EmitLoop inl fuel k symbols buf s).2 := by
  induction fuel with
  | zero => intro k symbols buf s; exact WCoarse_refl _ _
  | succ fuel ih =>
    intro k symbols buf s
    simp only [EmitLoop]
    split
    · by_cases hz : byteAt inl k = 0
      · simp only [if_pos hz]
        by_cases h1 : zeroRun inl k = 1
        · simp only [if_pos h1]
          have w1 := WriteBits_WCoarse buf s
            (symbols.getD 0 default).code (symbols.getD 0 default).bits
          rcases e1 : WriteBits buf s
              (symbols.getD 0 default).code (symbols.getD 0 default).bits
            with ⟨buf1, s1⟩
          rw [e1] at w1
          dsimp only
          split
          · exact w1
          · exact WCoarse_trans w1 (ih _ symbols buf1 s1)
        · simp only [if_neg h1]
          by_cases h2 : zeroRun inl k = 2
          · simp only [if_pos h2]
            have w1 := WriteBits_WCoarse buf s
              (symbols.getD kSymTwoZeros default).code
              (symbols.getD kSymTwoZeros default).bits
            rcases e1 : WriteBits buf s
                (symbols.getD kSymTwoZeros default).code
                (symbols.getD kSymTwoZeros default).bits
              with ⟨buf1, s1⟩
            rw [e1] at w1
            dsimp only
            split
            · exact w1
            · exact WCoarse_trans w1 (ih _ symbols buf1 s1)
          · simp only [if_neg h2]
            by_cases h6 : zeroRun inl k ≤ 6
            · simp only [if_pos h6]
              have w1 := WriteBits_WCoarse buf s
                (symbols.getD kSymUpTo6Zeros default).code
                (symbols.getD kSymUpTo6Zeros default).bits
              rcases e1 : WriteBits buf s
                  (symbols.getD kSymUpTo6Zeros default).code
                  (symbols.getD kSymUpTo6Zeros default).bits
                with ⟨buf1, s1⟩
              rw [e1] at w1
              have w2 := WriteBits_WCoarse buf1 s1 (zeroRun inl k - 3) 2
              rcases e2 : WriteBits buf1 s1 (zeroRun inl k - 3) 2
                with ⟨buf2, s2⟩
              rw [e2] at w2
              dsimp only
              split
              · exact WCoarse_trans w1 w2
              · exact WCoarse_trans w1 (WCoarse_trans w2 (ih _ symbols buf2 s2))
            · simp only [if_neg h6]
              by_cases h22 : zeroRun inl k ≤ 22
              · simp only [if_pos h22]
                have w1 := WriteBits_WCoarse buf s
                  (symbols.getD kSymUpTo22Zeros default).code
                  (symbols.getD kSymUpTo22Zeros default).bits
                rcases e1 : WriteBits buf s
                    (symbols.getD kSymUpTo22Zeros default).code
                    (symbols.getD kSymUpTo22Zeros default).bits
                  with ⟨buf1, s1⟩
                rw [e1] at w1
                have w2 := WriteBits_WCoarse buf1 s1 (zeroRun inl k - 7) 4
                rcases e2 : WriteBits buf1 s1 (zeroRun inl k - 7) 4
                  with ⟨buf2, s2⟩
                rw [e2] at w2
                dsimp only
                split
                · exact WCoarse_trans w1 w2
                · exact WCoarse_trans w1
                    (WCoarse_trans w2 (ih _ symbols buf2 s2))
              · simp only [if_neg h22]
                by_cases h278 : zeroRun inl k ≤ 278
                · simp only [if_pos h278]
                  have w1 := WriteBits_WCoarse buf s
                    (symbols.getD kSymUpTo278Zeros default).code
                    (symbols.getD kSymUpTo278Zeros default).bits
                  rcases e1 : WriteBits buf s
                      (symbols.getD kSymUpTo278Zeros default).code
                      (symbols.getD kSymUpTo278Zeros default).bits
                    with ⟨buf1, s1⟩
                  rw [e1] at w1
                  have w2 := WriteBits_WCoarse buf1 s1 (zeroRun inl k - 23) 8
                  rcases e2 : WriteBits buf1 s1 (zeroRun inl k - 23) 8
                    with ⟨buf2, s2⟩
                  rw [e2] at w2
                  dsimp only
                  split
                  · exact WCoarse_trans w1 w2
                  · exact WCoarse_trans w1
                      (WCoarse_trans w2 (ih _ symbols buf2 s2))
                · simp only [if_neg h278]
                  have w1 := WriteBits_WCoarse buf s
                    (symbols.getD kSymUpTo16662Zeros default).code
                    (symbols.getD kSymUpTo16662Zeros default).bits
                  rcases e1 : WriteBits buf s
                      (symbols.getD kSymUpTo16662Zeros default).code
                      (symbols.getD kSymUpTo16662Zeros default).bits
                    with ⟨buf1, s1⟩
                  rw [e1] at w1
                  have w2 := WriteBits_WCoarse buf1 s1 (zeroRun inl k - 279) 14
                  rcases e2 : WriteBits buf1 s1 (zeroRun inl k - 279) 14
                    with ⟨buf2, s2⟩
                  rw [e2] at w2
                  dsimp only
                  split
                  · exact WCoarse_trans w1 w2
                  · exact WCoarse_trans w1
                      (WCoarse_trans w2 (ih _ symbols buf2 s2))
      · simp only [if_neg hz]
        have w1 := WriteBits_WCoarse buf s
          (symbols.getD (byteAt inl k) default).code
          (symbols.getD (byteAt inl k) default).bits
        rcases e1 : WriteBits buf s
            (symbols.getD (byteAt inl k) default).code
            (symbols.getD (byteAt inl k) default).bits
          with ⟨buf1, s1⟩
        rw [e1] at w1
        dsimp only
        split
        · exact w1
        · exact WCoarse_trans w1 (ih _ symbols buf1 s1)
    · exact WCoarse_refl _ _

theorem esz_of_fill (inl buf : List Nat) (s : WriteStream)
    (buf' : List Nat) (s' : WriteStream) (esz : Nat)
    (h : EncodeFill inl buf s = some (buf', s', esz)) :
    esz = HZR_BLOCK_HEADER_SIZE + 1 := by
  unfold EncodeFill at h
  split at h
  · exact Option.noConfusion h
  · dsimp only at h
    rcases e1 : WriteBits buf s 0 16 with ⟨b1, t1⟩
    rw [e1] at h; dsimp only at h
    rcases e2 : WriteBits b1 t1 (_hzr_crc32 (inl.take 1)) 32 with ⟨b2, t2⟩
    rw [e2] at h; dsimp only at h
    rcases e3 : WriteBits b2 t2 HZR_ENCODING_FILL 8 with ⟨b3, t3⟩
    rw [e3] at h; dsimp only at h
    rcases e4 : WriteBits b3 t3 (byteAt inl 0) 8 with ⟨b4, t4⟩
    rw [e4] at h; dsimp only at h
    rcases e5 : ForceFlushBitCache b4 t4 with ⟨b5, t5⟩
    rw [e5] at h; dsimp only at h
    simp only [Option.some.injEq, Prod.mk.injEq] at h
    exact h.2.2.symm

theorem esz_of_copy (inl buf : List Nat) (s : WriteStream)
    (buf' : List Nat) (s' : WriteStream) (esz : Nat)
    (h : PlainCopy inl buf s = some (buf', s', esz)) :
    esz = inl.length + HZR_BLOCK_HEADER_SIZE := by
  unfold PlainCopy at h
  split at h
  · exact Option.noConfusion h
  · dsimp only at h
    rcases e1 : WriteBits buf s (inl.length - 1) 16 with ⟨b1, t1⟩
    rw [e1] at h; dsimp only at h
    rcases e2 : WriteBits b1 t1 (_hzr_crc32 inl) 32 with ⟨b2, t2⟩
    rw [e2] at h; dsimp only at h
    rcases e3 : WriteBits b2 t2 HZR_ENCODING_COPY 8 with ⟨b3, t3⟩
    rw [e3] at h; dsimp only at h
    rcases e4 : ForceFlushBitCache b3 t3 with ⟨b4, t4⟩
    rw [e4] at h; dsimp only at h
    simp only [Option.some.injEq, Prod.mk.injEq] at h
    exact h.2.2.symm

/-- Every successful EncodeSingleBlock reports at most `7 + |block input|`
encoded bytes (COPY fallback size), for nonempty block input. -/
theorem EncodeSingleBlock_esz (buf : List Nat) (s : WriteStream)
    (inl : List Nat) (buf' : List Nat) (s' : WriteStream) (esz : Nat)
    (hlen : 1 ≤ inl.length)
    (h : EncodeSingleBlock buf s inl = some (buf', s', esz)) :
    esz ≤ HZR_BLOCK_HEADER_SIZE + inl.length := by
  unfold EncodeSingleBlock at h
  dsimp only at h
  split at h
  · exact Option.noConfusion h
  · -- block header written into the restricted block stream
    rename_i hguard
    set B : WriteStream := { s with endPos := min (s.bytePtr + HZR_BLOCK_HEADER_SIZE + inl.length) s.endPos } with hB
    rcases e1 : WriteBits buf B 0 16 with ⟨b1, t1⟩
    have w1 := WriteBits_WCoarse buf B 0 16
    rw [e1] at h w1; dsimp only at h w1
    rcases e2 : WriteBits b1 t1 0 32 with ⟨b2, t2⟩
    have w2 := WriteBits_WCoarse b1 t1 0 32
    rw [e2] at h w2; dsimp only at h w2
    rcases e3 : WriteBits b2 t2 0 8 with ⟨b3, t3⟩
    have w3 := WriteBits_WCoarse b2 t2 0 8
    rw [e3] at h w3; dsimp only at h w3
    split at h
    · -- FILL
      rw [esz_of_fill inl b3 s buf' s' esz h]
      unfold HZR_BLOCK_HEADER_SIZE
      omega
    · -- HUFF_RLE attempt
      rcases eM : MakeTree (Histogram inl) b3 t3 with ⟨symM, bM, tM⟩
      have wM := MakeTree_WCoarse (Histogram inl) b3 t3
      rw [eM] at h wM; dsimp only at h wM
      split at h
      · -- tree write overflowed: COPY fallback
        rw [esz_of_copy inl bM s buf' s' esz h, Nat.add_comm]
      · rcases eE : EmitLoop inl inl.length 0 symM bM tM with ⟨bE, tE⟩
        have wE := EmitLoop_WCoarse inl inl.length 0 symM bM tM
        rw [eE] at h wE; dsimp only at h wE
        split at h
        · -- emission overflowed: COPY fallback
          rw [esz_of_copy inl bE s buf' s' esz h, Nat.add_comm]
        · rcases eF : ForceFlushBitCache bE tE with ⟨bF, tF⟩
          have wF := ForceFlush_WCoarse bE tE
          have hal := ForceFlush_aligned bE tE
          rw [eF] at h wF hal; dsimp only at h wF hal
          split at h
          · -- overflow or oversized block: COPY fallback
            rw [esz_of_copy inl bF s buf' s' esz h, Nat.add_comm]
          · -- committed HUFF_RLE block
            rename_i hok
            rcases eh1 : WriteBits bF s
                (tF.bytePtr - s.bytePtr - HZR_BLOCK_HEADER_SIZE - 1) 16
              with ⟨c1, u1⟩
            rw [eh1] at h; dsimp only at h
            rcases eh2 : WriteBits c1 u1
                (_hzr_crc32 (memcpyRead bF (s.bytePtr + HZR_BLOCK_HEADER_SIZE)
                  (tF.bytePtr - s.bytePtr - HZR_BLOCK_HEADER_SIZE))) 32
              with ⟨c2, u2⟩
            rw [eh2] at h; dsimp only at h
            rcases eh3 : WriteBits c2 u2 HZR_ENCODING_HUFF_RLE 8 with ⟨c3, u3⟩
            rw [eh3] at h; dsimp only at h
            simp only [Option.some.injEq, Prod.mk.injEq] at h
            -- compose the coarse write contracts through the block stream
            have W : WCoarse buf bF B tF :=
              WCoarse_trans w1 (WCoarse_trans w2 (WCoarse_trans w3
                (WCoarse_trans wM (WCoarse_trans wE wF))))
            obtain ⟨hend, _, _, hpos, _, _⟩ := W
            have hnf : tF.write_failed = false := by
              rcases Bool.eq_false_or_eq_true tF.write_failed with hb | hb
              · exact absurd (Or.inl hb) hok
              · exact hb
            have hbp0 : tF.bit_pos = 0 := hal hnf
            have hesz := h.2.2
            rw [hB] at hguard hpos hend
            dsimp only at hguard hpos hend
            unfold WriteStream.bytePtr at hguard hesz hpos
            unfold HZR_BLOCK_HEADER_SIZE at hguard hesz hpos ⊢
            simp only [Nat.shiftRight_eq_div_pow, hbp0] at hguard hesz hpos
            have hpos2 : tF.pos ≤ min (s.pos + s.bit_pos / 2 ^ 3 + 7 + inl.length)
                s.endPos := hpos (by omega)
            simp only [Nat.min_def] at hguard hpos2
            split at hpos2 <;> omega
/-- Total size accounting for the block loop: each successful block adds at
most `7 + min(remaining, 65536)` bytes. -/
theorem EncodeBlocksAux_bound (inl : List Nat) : ∀ (fuel k total : Nat)
    (buf : List Nat) (s : WriteStream) (b : List Nat) (s' : WriteStream)
    (tot : Nat),
    EncodeBlocksAux inl fuel k buf s total = some (b, s', tot) →
    tot ≤ total + (inl.length - k) + 7 * ((inl.length - k + 65535) / 65536) := by
  intro fuel
  induction fuel with
  | zero =>
    intro k total buf s b s' tot h
    simp only [EncodeBlocksAux] at h
    split at h
    · exact Option.noConfusion h
    · simp only [Option.some.injEq, Prod.mk.injEq] at h
      omega
  | succ fuel ih =>
    intro k total buf s b s' tot h
    simp only [EncodeBlocksAux] at h
    split at h
    · rename_i hk
      rcases hE : EncodeSingleBlock buf s
          ((inl.drop k).take (min (inl.length - k) HZR_MAX_BLOCK_SIZE))
        with _ | ⟨b1, s1, esz⟩
      · rw [hE] at h; exact Option.noConfusion h
      · rw [hE] at h
        dsimp only at h
        have hlen1 : ((inl.drop k).take
            (min (inl.length - k) HZR_MAX_BLOCK_SIZE)).length =
            min (inl.length - k) HZR_MAX_BLOCK_SIZE := by
          rw [List.length_take, List.length_drop]
          unfold HZR_MAX_BLOCK_SIZE
          omega
        have hesz := EncodeSingleBlock_esz buf s _ b1 s1 esz
          (by rw [hlen1]; unfold HZR_MAX_BLOCK_SIZE; omega) hE
        have hrec := ih (k + min (inl.length - k) HZR_MAX_BLOCK_SIZE)
          (total + esz) b1 s1 b s' tot h
        rw [hlen1] at hesz
        unfold HZR_MAX_BLOCK_SIZE at hesz hrec
        unfold HZR_BLOCK_HEADER_SIZE at hesz
        omega
    · simp only [Option.some.injEq, Prod.mk.injEq] at h
      omega
/-- C6: `hzr_max_compressed_size n` equals `4 + ceil(n/65536)*7 + n` for
`n > 0` (and `4` for `n = 0`), and every successful `hzr_encode` reports an
encoded size bounded by `hzr_max_compressed_size` of the input length. -/
theorem C6_max_compressed_size_bound :
    (∀ n : Nat, hzr_max_compressed_size n =
      if 0 < n then 4 + ((n + 65535) / 65536) * 7 + n else 4) ∧
    (∀ (inl out buf : List Nat) (esz : Nat),
      hzr_encode inl out = some (buf, esz) →
      esz ≤ hzr_max_compressed_size inl.length) := by
  constructor
  · intro n
    unfold hzr_max_compressed_size
    unfold HZR_HEADER_SIZE HZR_MAX_BLOCK_SIZE HZR_BLOCK_HEADER_SIZE
    dsimp only
    split
    · omega
    · omega
  · intro inl out buf esz h
    unfold hzr_encode at h
    split at h
    · exact Option.noConfusion h
    · dsimp only at h
      rcases eW : WriteBits out (InitWriteStream out.length)
          (inl.length % 2 ^ 32) 32 with ⟨b1, t1⟩
      rw [eW] at h; dsimp only at h
      rcases eF : ForceFlushBitCache b1 t1 with ⟨b2, t2⟩
      rw [eF] at h; dsimp only at h
      rcases hE : EncodeBlocks inl 0 b2 t2 0 with _ | ⟨b3, s3, bs⟩
      · rw [hE] at h; exact Option.noConfusion h
      · rw [hE] at h
        dsimp only at h
        simp only [Option.some.injEq, Prod.mk.injEq] at h
        have hb := EncodeBlocksAux_bound inl inl.length 0 0 b2 t2 b3 s3 bs hE
        unfold hzr_max_compressed_size
        unfold HZR_HEADER_SIZE at h ⊢
        unfold HZR_MAX_BLOCK_SIZE HZR_BLOCK_HEADER_SIZE
        dsimp only
        split
        · omega
        · omega

/-- Witness: encoding the empty input into a 4-byte buffer succeeds with 4
reported bytes, within `hzr_max_compressed_size 0 = 4`. -/
theorem C6_max_compressed_size_bound_witness :
    4 ≤ hzr_max_compressed_size 0 :=
  C6_max_compressed_size_bound.2 [] [0, 0, 0, 0] [0, 0, 0, 0] 4 (by rfl)
/-- EncodeFill succeeds on a byte-aligned stream with at least 8 bytes of
room, advancing the cursor by exactly 8 bytes. -/
theorem EncodeFill_spec (inl buf : List Nat) (s : WriteStream)
    (hbp : s.bit_pos = 0)
    (hroom : s.pos + HZR_BLOCK_HEADER_SIZE + 1 ≤ s.endPos)
    (hlen : s.endPos ≤ buf.length) :
    ∃ b' s', EncodeFill inl buf s = some (b', s', HZR_BLOCK_HEADER_SIZE + 1) ∧
      s'.pos = s.pos + (HZR_BLOCK_HEADER_SIZE + 1) ∧ s'.bit_pos = 0 ∧
      s'.endPos = s.endPos ∧ s'.write_failed = s.write_failed ∧
      b'.length = buf.length ∧
      (∀ i, i < s.pos → byteAt b' i = byteAt buf i) := by
  have hbyte : s.bytePtr = s.pos := by
    unfold WriteStream.bytePtr
    rw [hbp]
    simp [Nat.shiftRight_eq_div_pow]
  unfold HZR_BLOCK_HEADER_SIZE at hroom ⊢
  unfold EncodeFill
  rw [if_neg (by rw [hbyte]; unfold HZR_BLOCK_HEADER_SIZE; omega)]
  rcases e1 : WriteBits buf s 0 16 with ⟨b1, t1⟩
  have p1 := WriteBits_pos8 buf s 0 2 hbp (by omega) (by omega) (by omega) hlen
  simp only [show (8 : Nat) * 2 = 16 from rfl, e1] at p1
  obtain ⟨⟨q1p, q1b, q1e, q1w⟩, q1l, q1x⟩ := p1
  dsimp only
  rcases e2 : WriteBits b1 t1 (_hzr_crc32 (inl.take 1)) 32 with ⟨b2, t2⟩
  have p2 := WriteBits_pos8 b1 t1 (_hzr_crc32 (inl.take 1)) 4 q1b (by omega)
    (by omega) (by omega) (by omega)
  simp only [show (8 : Nat) * 4 = 32 from rfl, e2] at p2
  obtain ⟨⟨q2p, q2b, q2e, q2w⟩, q2l, q2x⟩ := p2
  dsimp only
  rcases e3 : WriteBits b2 t2 HZR_ENCODING_FILL 8 with ⟨b3, t3⟩
  have p3 := WriteBits_pos8 b2 t2 HZR_ENCODING_FILL 1 q2b (by omega) (by omega)
    (by omega) (by omega)
  simp only [show (8 : Nat) * 1 = 8 from rfl, e3] at p3
  obtain ⟨⟨q3p, q3b, q3e, q3w⟩, q3l, q3x⟩ := p3
  dsimp only
  rcases e4 : WriteBits b3 t3 (byteAt inl 0) 8 with ⟨b4, t4⟩
  have p4 := WriteBits_pos8 b3 t3 (byteAt inl 0) 1 q3b (by omega) (by omega)
    (by omega) (by omega)
  simp only [show (8 : Nat) * 1 = 8 from rfl, e4] at p4
  obtain ⟨⟨q4p, q4b, q4e, q4w⟩, q4l, q4x⟩ := p4
  dsimp only
  rw [ForceFlush_bp0 b4 t4 q4b]
  dsimp only
  refine ⟨b4, t4, rfl, by omega, q4b, by omega, by rw [q4w, q3w, q2w, q1w],
    by omega, ?_⟩
  intro i hi
  rw [q4x i (Or.inl (by omega)), q3x i (Or.inl (by omega)),
    q2x i (Or.inl (by omega)), q1x i (Or.inl (by omega))]

/-- PlainCopy succeeds on a byte-aligned stream with at least
`7 + |inl|` bytes of room, advancing the cursor by exactly that much. -/
theorem PlainCopy_spec (inl buf : List Nat) (s : WriteStream)
    (hbp : s.bit_pos = 0)
    (hroom : s.pos + HZR_BLOCK_HEADER_SIZE + inl.length ≤ s.endPos)
    (hlen : s.endPos ≤ buf.length) :
    ∃ b' s', PlainCopy inl buf s =
        some (b', s', inl.length + HZR_BLOCK_HEADER_SIZE) ∧
      s'.pos = s.pos + (HZR_BLOCK_HEADER_SIZE + inl.length) ∧ s'.bit_pos = 0 ∧
      s'.endPos = s.endPos ∧ s'.write_failed = s.write_failed ∧
      b'.length = buf.length ∧
      (∀ i, i < s.pos → byteAt b' i = byteAt buf i) := by
  have hbyte : s.bytePtr = s.pos := by
    unfold WriteStream.bytePtr
    rw [hbp]
    simp [Nat.shiftRight_eq_div_pow]
  unfold HZR_BLOCK_HEADER_SIZE at hroom ⊢
  unfold PlainCopy
  rw [if_neg (by rw [hbyte]; unfold HZR_BLOCK_HEADER_SIZE; omega)]
  rcases e1 : WriteBits buf s (inl.length - 1) 16 with ⟨b1, t1⟩
  have p1 := WriteBits_pos8 buf s (inl.length - 1) 2 hbp (by omega) (by omega)
    (by omega) hlen
  simp only [show (8 : Nat) * 2 = 16 from rfl, e1] at p1
  obtain ⟨⟨q1p, q1b, q1e, q1w⟩, q1l, q1x⟩ := p1
  dsimp only
  rcases e2 : WriteBits b1 t1 (_hzr_crc32 inl) 32 with ⟨b2, t2⟩
  have p2 := WriteBits_pos8 b1 t1 (_hzr_crc32 inl) 4 q1b (by omega) (by omega)
    (by omega) (by omega)
  simp only [show (8 : Nat) * 4 = 32 from rfl, e2] at p2
  obtain ⟨⟨q2p, q2b, q2e, q2w⟩, q2l, q2x⟩ := p2
  dsimp only
  rcases e3 : WriteBits b2 t2 HZR_ENCODING_COPY 8 with ⟨b3, t3⟩
  have p3 := WriteBits_pos8 b2 t2 HZR_ENCODING_COPY 1 q2b (by omega) (by omega)
    (by omega) (by omega)
  simp only [show (8 : Nat) * 1 = 8 from rfl, e3] at p3
  obtain ⟨⟨q3p, q3b, q3e, q3w⟩, q3l, q3x⟩ := p3
  dsimp only
  rw [ForceFlush_bp0 b3 t3 q3b]
  dsimp only
  have hb3 : t3.bytePtr = t3.pos := by
    unfold WriteStream.bytePtr
    rw [q3b]
    simp [Nat.shiftRight_eq_div_pow]
  refine ⟨writeBytes b3 t3.bytePtr inl, _, rfl, by dsimp only; omega,
    by dsimp only; exact q3b, by dsimp only; omega,
    by dsimp only; rw [q3w, q2w, q1w],
    by rw [writeBytes_length]; omega, ?_⟩
  intro i hi
  rw [writeBytes_low b3 t3.bytePtr inl i (by omega),
    q3x i (Or.inl (by omega)), q2x i (Or.inl (by omega)),
    q1x i (Or.inl (by omega))]
/-- EncodeSingleBlock always succeeds on a fresh byte-aligned stream with at
least `7 + |inl|` bytes of room (the COPY fallback guarantees it), and the
committed stream advances by exactly the reported encoded size. -/
theorem EncodeSingleBlock_spec (buf : List Nat) (s : WriteStream)
    (inl : List Nat)
    (hbp : s.bit_pos = 0) (hwf : s.write_failed = false)
    (hroom : s.pos + HZR_BLOCK_HEADER_SIZE + inl.length ≤ s.endPos)
    (hblen : s.endPos ≤ buf.length)
    (hlen1 : 1 ≤ inl.length) :
    ∃ b' s' esz, EncodeSingleBlock buf s inl = some (b', s', esz) ∧
      s'.endPos = s.endPos ∧ s'.bit_pos = 0 ∧ s'.write_failed = false ∧
      s'.pos = s.pos + esz ∧ esz ≤ HZR_BLOCK_HEADER_SIZE + inl.length ∧
      b'.length = buf.length ∧
      (∀ i, i < s.pos → byteAt b' i = byteAt buf i) := by
  have hbyte : s.bytePtr = s.pos := by
    unfold WriteStream.bytePtr
    rw [hbp]
    simp [Nat.shiftRight_eq_div_pow]
  unfold HZR_BLOCK_HEADER_SIZE at hroom
  unfold EncodeSingleBlock
  unfold HZR_BLOCK_HEADER_SIZE
  set B : WriteStream := { s with endPos := min (s.bytePtr + 7 + inl.length) s.endPos } with hB
  have hBp : B.pos = s.pos := by rw [hB]
  have hBbp : B.bit_pos = 0 := by rw [hB]; exact hbp
  have hBw : B.write_failed = false := by rw [hB]; exact hwf
  have hBe : B.endPos = (s.pos + 7 + inl.length) ⊓ s.endPos := by
    rw [hB, hbyte]
  have hBbyte : B.bytePtr = s.pos := by
    unfold WriteStream.bytePtr
    rw [hBp, hBbp]
    simp [Nat.shiftRight_eq_div_pow]
  rw [if_neg (by rw [hBbyte, hBe]; omega)]
  rcases e1 : WriteBits buf B 0 16 with ⟨b1, t1⟩
  have p1 := WriteBits_pos8 buf B 0 2 hBbp (by omega) (by omega)
    (by rw [hBp, hBe]; omega) (by rw [hBe]; omega)
  simp only [show (8 : Nat) * 2 = 16 from rfl, e1] at p1
  obtain ⟨⟨q1p, q1b, q1e, q1w⟩, q1l, q1x⟩ := p1
  dsimp only
  rcases e2 : WriteBits b1 t1 0 32 with ⟨b2, t2⟩
  have p2 := WriteBits_pos8 b1 t1 0 4 q1b (by omega) (by omega)
    (by rw [q1p, q1e, hbyte]; omega) (by rw [q1e, q1l, hbyte]; omega)
  simp only [show (8 : Nat) * 4 = 32 from rfl, e2] at p2
  obtain ⟨⟨q2p, q2b, q2e, q2w⟩, q2l, q2x⟩ := p2
  dsimp only
  rcases e3 : WriteBits b2 t2 0 8 with ⟨b3, t3⟩
  have p3 := WriteBits_pos8 b2 t2 0 1 q2b (by omega) (by omega)
    (by rw [q2p, q2e, q1p, q1e, hbyte]; omega)
    (by rw [q2e, q2l, q1e, q1l, hbyte]; omega)
  simp only [show (8 : Nat) * 1 = 8 from rfl, e3] at p3
  obtain ⟨⟨q3p, q3b, q3e, q3w⟩, q3l, q3x⟩ := p3
  dsimp only
  have hlen3 : b3.length = buf.length := by rw [q3l, q2l, q1l]
  have ht3pos : t3.pos = s.pos + 7 := by omega
  have hend1 : t3.endPos = (s.bytePtr + 7 + inl.length) ⊓ s.endPos := by
    rw [q3e, q2e, q1e]
  by_cases hOSC : OnlySingleCode (Histogram inl) = true
  · rw [if_pos hOSC]
    obtain ⟨b', s', hEF, hp, hb', he, hw, hl, hx⟩ :=
      EncodeFill_spec inl b3 s hbp
        (by unfold HZR_BLOCK_HEADER_SIZE; omega) (by omega)
    refine ⟨b', s', _, hEF, he, hb', by rw [hw, hwf], by rw [hp],
      by unfold HZR_BLOCK_HEADER_SIZE; omega, by omega, ?_⟩
    intro i hi
    rw [hx i hi, q3x i (Or.inl (by omega)), q2x i (Or.inl (by omega)),
      q1x i (Or.inl (by omega))]
  · rw [if_neg hOSC]
    rcases eM : MakeTree (Histogram inl) b3 t3 with ⟨symM, bM, tM⟩
    have wM := MakeTree_WCoarse (Histogram inl) b3 t3
    rw [eM] at wM
    obtain ⟨cMe, cMl, cMm, cMb, cMf, cMx⟩ := wM
    dsimp only at cMe cMl cMm cMb cMf cMx
    dsimp only
    by_cases hMf : tM.write_failed = true
    · rw [if_pos hMf]
      obtain ⟨b', s', hPC, hp, hb', he, hw, hl, hx⟩ :=
        PlainCopy_spec inl bM s hbp
          (by unfold HZR_BLOCK_HEADER_SIZE; omega) (by omega)
      refine ⟨b', s', _, hPC, he, hb', by rw [hw, hwf],
        by rw [hp]; unfold HZR_BLOCK_HEADER_SIZE; omega,
        by unfold HZR_BLOCK_HEADER_SIZE; omega, by omega, ?_⟩
      intro i hi
      rw [hx i hi, cMx i (by omega), q3x i (Or.inl (by omega)),
        q2x i (Or.inl (by omega)), q1x i (Or.inl (by omega))]
    · rw [if_neg hMf]
      rcases eE : EmitLoop inl inl.length 0 symM bM tM with ⟨bE, tE⟩
      have wE := EmitLoop_WCoarse inl inl.length 0 symM bM tM
      rw [eE] at wE
      obtain ⟨cEe, cEl, cEm, cEb, cEf, cEx⟩ := wE
      dsimp only at cEe cEl cEm cEb cEf cEx
      dsimp only
      by_cases hEf : tE.write_failed = true
      · rw [if_pos hEf]
        obtain ⟨b', s', hPC, hp, hb', he, hw, hl, hx⟩ :=
          PlainCopy_spec inl bE s hbp
            (by unfold HZR_BLOCK_HEADER_SIZE; omega) (by omega)
        refine ⟨b', s', _, hPC, he, hb', by rw [hw, hwf],
          by rw [hp]; unfold HZR_BLOCK_HEADER_SIZE; omega,
          by unfold HZR_BLOCK_HEADER_SIZE; omega, by omega, ?_⟩
        intro i hi
        rw [hx i hi, cEx i (by omega), cMx i (by omega),
          q3x i (Or.inl (by omega)), q2x i (Or.inl (by omega)),
          q1x i (Or.inl (by omega))]
      · rw [if_neg hEf]
        rcases eF : ForceFlushBitCache bE tE with ⟨bF, tF⟩
        have wF := ForceFlush_WCoarse bE tE
        have hal := ForceFlush_aligned bE tE
        rw [eF] at wF hal
        obtain ⟨cFe, cFl, cFm, cFb, cFf, cFx⟩ := wF
        dsimp only at cFe cFl cFm cFb cFf cFx hal
        dsimp only
        have hlenF : bF.length = buf.length := by rw [cFl, cEl, cMl, hlen3]
        have hMp : tM.pos ≤ t3.endPos := cMb (by rw [hend1, hbyte]; omega)
        have hEp : tE.pos ≤ tM.endPos := cEb (by rw [cMe]; omega)
        have hFp : tF.pos ≤ tE.endPos := cFb (by rw [cEe, cMe]; omega)
        have hFpos : tF.pos ≤ (s.pos + 7 + inl.length) ⊓ s.endPos := by
          rw [hbyte] at hend1
          omega
        by_cases hbig : tF.write_failed = true ∨
            HZR_MAX_BLOCK_SIZE ≤ tF.bytePtr - s.bytePtr - 7
        · rw [if_pos hbig]
          obtain ⟨b', s', hPC, hp, hb', he, hw, hl, hx⟩ :=
            PlainCopy_spec inl bF s hbp
              (by unfold HZR_BLOCK_HEADER_SIZE; omega) (by omega)
          refine ⟨b', s', _, hPC, he, hb', by rw [hw, hwf],
            by rw [hp]; unfold HZR_BLOCK_HEADER_SIZE; omega,
            by unfold HZR_BLOCK_HEADER_SIZE; omega, by omega, ?_⟩
          intro i hi
          rw [hx i hi, cFx i (by omega), cEx i (by omega), cMx i (by omega),
            q3x i (Or.inl (by omega)), q2x i (Or.inl (by omega)),
            q1x i (Or.inl (by omega))]
        · rw [if_neg hbig]
          have hFnf : tF.write_failed = false := by
            rcases Bool.eq_false_or_eq_true tF.write_failed with hb | hb
            · exact absurd (Or.inl hb) hbig
            · exact hb
          have hFbp : tF.bit_pos = 0 := hal hFnf
          have hFbyte : tF.bytePtr = tF.pos := by
            unfold WriteStream.bytePtr
            rw [hFbp]
            simp [Nat.shiftRight_eq_div_pow]
          rcases eh1 : WriteBits bF s (tF.bytePtr - s.bytePtr - 7 - 1) 16
            with ⟨c1, u1⟩
          have r1 := WriteBits_pos8 bF s (tF.bytePtr - s.bytePtr - 7 - 1) 2
            hbp (by omega) (by omega) (by omega) (by omega)
          simp only [show (8 : Nat) * 2 = 16 from rfl, eh1] at r1
          obtain ⟨⟨v1p, v1b, v1e, v1w⟩, v1l, v1x⟩ := r1
          dsimp only
          rcases eh2 : WriteBits c1 u1
              (_hzr_crc32 (memcpyRead bF (s.bytePtr + 7)
                (tF.bytePtr - s.bytePtr - 7))) 32 with ⟨c2, u2⟩
          have r2 := WriteBits_pos8 c1 u1
            (_hzr_crc32 (memcpyRead bF (s.bytePtr + 7)
              (tF.bytePtr - s.bytePtr - 7))) 4
            v1b (by omega) (by omega) (by rw [v1p, v1e]; omega)
            (by rw [v1e, v1l]; omega)
          simp only [show (8 : Nat) * 4 = 32 from rfl, eh2] at r2
          obtain ⟨⟨v2p, v2b, v2e, v2w⟩, v2l, v2x⟩ := r2
          dsimp only
          rcases eh3 : WriteBits c2 u2 HZR_ENCODING_HUFF_RLE 8 with ⟨c3, u3⟩
          have r3 := WriteBits_pos8 c2 u2 HZR_ENCODING_HUFF_RLE 1
            v2b (by omega) (by omega)
            (by rw [v2p, v2e, v1p, v1e]; omega)
            (by rw [v2e, v2l, v1e, v1l]; omega)
          simp only [show (8 : Nat) * 1 = 8 from rfl, eh3] at r3
          obtain ⟨⟨v3p, v3b, v3e, v3w⟩, v3l, v3x⟩ := r3
          dsimp only
          refine ⟨c3, CopyWriteState u3 tF, tF.bytePtr - s.bytePtr - 7 + 7,
            rfl, ?_, ?_, ?_, ?_, ?_, ?_, ?_⟩
          · show u3.endPos = s.endPos
            omega
          · show tF.bit_pos = 0
            exact hFbp
          · show tF.write_failed = false
            exact hFnf
          · show tF.pos = s.pos + (tF.bytePtr - s.bytePtr - 7 + 7)
            rw [hFbyte, hbyte]
            omega
          · rw [hFbyte, hbyte]
            omega
          · omega
          · intro i hi
            rw [v3x i (Or.inl (by omega)), v2x i (Or.inl (by omega)),
              v1x i (Or.inl (by omega)), cFx i (by omega), cEx i (by omega),
              cMx i (by omega), q3x i (Or.inl (by omega)),
              q2x i (Or.inl (by omega)), q1x i (Or.inl (by omega))]
/-- The block loop succeeds whenever the output stream has room for the
worst case (`7 + size` per block), committing a byte-aligned stream that
advanced by exactly the accumulated encoded size. -/
theorem EncodeBlocksAux_spec (inl : List Nat) : ∀ (fuel k total : Nat)
    (buf : List Nat) (s : WriteStream),
    s.bit_pos = 0 → s.write_failed = false →
    inl.length - k ≤ fuel →
    s.pos + (inl.length - k) + 7 * ((inl.length - k + 65535) / 65536) ≤
      s.endPos →
    s.endPos ≤ buf.length →
    ∃ b' s' tot, EncodeBlocksAux inl fuel k buf s total = some (b', s', tot) ∧
      s'.endPos = s.endPos ∧ s'.bit_pos = 0 ∧ s'.write_failed = false ∧
      s'.pos = s.pos + (tot - total) ∧ total ≤ tot ∧
      b'.length = buf.length ∧
      (∀ i, i < s.pos → byteAt b' i = byteAt buf i) := by
  intro fuel
  induction fuel with
  | zero =>
    intro k total buf s hbp hwf hfuel hroom hblen
    simp only [EncodeBlocksAux]
    rw [if_neg (by omega)]
    exact ⟨buf, s, total, rfl, rfl, hbp, hwf, by omega, le_refl _, rfl,
      fun _ _ => rfl⟩
  | succ fuel ih =>
    intro k total buf s hbp hwf hfuel hroom hblen
    simp only [EncodeBlocksAux]
    by_cases hk : k < inl.length
    · rw [if_pos hk]
      have hlenblk : ((inl.drop k).take
          (min (inl.length - k) HZR_MAX_BLOCK_SIZE)).length =
          min (inl.length - k) HZR_MAX_BLOCK_SIZE := by
        rw [List.length_take, List.length_drop]
        unfold HZR_MAX_BLOCK_SIZE
        omega
      obtain ⟨b1, s1, esz, hE, he1, hb1, hw1, hp1, hesz1, hl1, hx1⟩ :=
        EncodeSingleBlock_spec buf s
          ((inl.drop k).take (min (inl.length - k) HZR_MAX_BLOCK_SIZE))
          hbp hwf
          (by rw [hlenblk]; unfold HZR_MAX_BLOCK_SIZE HZR_BLOCK_HEADER_SIZE
              omega)
          hblen (by rw [hlenblk]; unfold HZR_MAX_BLOCK_SIZE; omega)
      rw [hE]
      dsimp only
      rw [hlenblk] at hesz1
      unfold HZR_MAX_BLOCK_SIZE at hesz1
      unfold HZR_BLOCK_HEADER_SIZE at hesz1
      obtain ⟨b2, s2, tot, hrec, he2, hb2, hw2, hp2, ht2, hl2, hx2⟩ :=
        ih (k + min (inl.length - k) HZR_MAX_BLOCK_SIZE) (total + esz) b1 s1
          hb1 hw1
          (by unfold HZR_MAX_BLOCK_SIZE; omega)
          (by rw [he1]; unfold HZR_MAX_BLOCK_SIZE; omega)
          (by omega)
      refine ⟨b2, s2, tot, hrec, by rw [he2, he1], hb2, hw2, by omega,
        by omega, by omega, ?_⟩
      intro i hi
      rw [hx2 i (by omega), hx1 i hi]
    · rw [if_neg hk]
      exact ⟨buf, s, total, rfl, rfl, hbp, hwf, by omega, le_refl _, rfl,
        fun _ _ => rfl⟩
/-- C10: `hzr_encode` enforces no input-size limit: it succeeds for every
input length whenever the output buffer meets `hzr_max_compressed_size`,
and the 32-bit master header stores `in_size mod 2^32`, which differs from
the true input length whenever `in_size >= 2^32`. -/
theorem C10_no_input_limit (inl out : List Nat)
    (hcap : hzr_max_compressed_size inl.length ≤ out.length) :
    ∃ b esz, hzr_encode inl out = some (b, esz) ∧
      [byteAt b 0, byteAt b 1, byteAt b 2, byteAt b 3] =
        le32 (inl.length % 2 ^ 32) ∧
      (2 ^ 32 ≤ inl.length → inl.length % 2 ^ 32 ≠ inl.length) := by
  unfold hzr_max_compressed_size at hcap
  unfold HZR_HEADER_SIZE HZR_MAX_BLOCK_SIZE HZR_BLOCK_HEADER_SIZE at hcap
  dsimp only at hcap
  have hcap4 : 4 + (inl.length + 7 * ((inl.length + 65535) / 65536)) ≤
      out.length := by
    rcases Nat.eq_zero_or_pos inl.length with h0 | h0
    · rw [if_neg (by omega)] at hcap
      simp [h0] at hcap ⊢
      omega
    · rw [if_pos h0] at hcap
      omega
  unfold hzr_encode
  rw [if_neg (by unfold HZR_HEADER_SIZE; omega)]
  dsimp only
  rcases eW : WriteBits out (InitWriteStream out.length)
      (inl.length % 2 ^ 32) 32 with ⟨b1, t1⟩
  have pa := WriteBits_aligned out (InitWriteStream out.length)
    (inl.length % 2 ^ 32) 4 rfl rfl (by omega) (by omega) (by omega)
    (by show 0 + 4 ≤ out.length; omega) (le_refl _)
  simp only [show (8 : Nat) * 4 = 32 from rfl] at pa
  rw [eW] at pa
  simp only [InitWriteStream] at pa
  obtain ⟨pa1, pa2, pa3⟩ := pa
  have h1p : t1.pos = 4 := by rw [pa1]
  have h1b : t1.bit_pos = 0 := by rw [pa1]
  have h1w : t1.write_failed = false := by rw [pa1]
  have h1e : t1.endPos = out.length := by rw [pa1]
  rw [ForceFlush_bp0 b1 t1 h1b]
  dsimp only
  unfold EncodeBlocks
  obtain ⟨b2, s2, tot, hrec, he2, hb2, hw2, hp2, ht2, hl2, hx2⟩ :=
    EncodeBlocksAux_spec inl inl.length 0 0 b1 t1 h1b h1w (by omega)
      (by rw [h1p, h1e]; omega) (by rw [h1e, pa2])
  rw [hrec]
  dsimp only
  refine ⟨b2, HZR_HEADER_SIZE + tot, rfl, ?_, by intro h; omega⟩
  have hdr : ∀ i, i < 4 →
      byteAt b2 i = (inl.length % 2 ^ 32) >>> (8 * i) % 256 := by
    intro i hi
    rw [hx2 i (by omega), pa3 i, if_pos (by constructor <;> omega)]
    simp
  unfold le32
  rw [hdr 0 (by omega), hdr 1 (by omega), hdr 2 (by omega), hdr 3 (by omega)]
  norm_num
/-- Witness: the empty input encodes successfully into a 4-byte buffer and
the master header holds `0 mod 2^32`. -/
theorem C10_no_input_limit_witness :
    ∃ b esz, hzr_encode [] [0, 0, 0, 0] = some (b, esz) ∧
      [byteAt b 0, byteAt b 1, byteAt b 2, byteAt b 3] =
        le32 (([] : List Nat).length % 2 ^ 32) ∧
      (2 ^ 32 ≤ ([] : List Nat).length →
        ([] : List Nat).length % 2 ^ 32 ≠ ([] : List Nat).length) :=
  C10_no_input_limit [] [0, 0, 0, 0] (by decide)
/-! ## Uniform (single-symbol) inputs: the FILL path -/

theorem crc32cBitStep_lt (c : Nat) (h : c < 2 ^ 32) :
    crc32cBitStep c < 2 ^ 32 := by
  unfold crc32cBitStep
  split
  · exact Nat.xor_lt_two_pow (by omega) (by omega)
  · omega

theorem crc32cByteStep_lt (c b : Nat) (h : c < 2 ^ 32) :
    crc32cByteStep c b < 2 ^ 32 := by
  unfold crc32cByteStep
  dsimp only [Function.comp]
  have h0 : c ^^^ b % 256 < 2 ^ 32 :=
    Nat.xor_lt_two_pow h (by have := Nat.mod_lt b (show 0 < 256 by omega); omega)
  exact crc32cBitStep_lt _ (crc32cBitStep_lt _ (crc32cBitStep_lt _
    (crc32cBitStep_lt _ (crc32cBitStep_lt _ (crc32cBitStep_lt _
    (crc32cBitStep_lt _ (crc32cBitStep_lt _ h0)))))))

theorem crc32_foldl_lt (l : List Nat) : ∀ c, c < 2 ^ 32 →
    l.foldl crc32cByteStep c < 2 ^ 32 := by
  induction l with
  | nil => intro c h; simpa using h
  | cons a l ih =>
    intro c h
    simpa using ih (crc32cByteStep c a) (crc32cByteStep_lt c a h)

theorem _hzr_crc32_lt (l : List Nat) : _hzr_crc32 l < 2 ^ 32 := by
  unfold _hzr_crc32
  exact Nat.xor_lt_two_pow (crc32_foldl_lt l _ (by omega)) (by omega)

theorem initSymbols_length : initSymbols.length = kNumSymbols := by
  unfold initSymbols
  rw [List.length_map, List.length_range]

theorem initSymbols_getD (j : Nat) (hj : j < kNumSymbols) :
    initSymbols.getD j default = ⟨j, 0, 0, 0⟩ := by
  unfold initSymbols
  rw [List.getD_eq_getElem _ _ (by rw [List.length_map, List.length_range]; exact hj)]
  simp

/-- The histogram of a uniform non-zero block counts `m` at symbol `v` and
nothing else. -/
theorem Histogram_replicate (m v : Nat) (hv : v ≠ 0) (hv2 : v < 256) :
    Histogram (List.replicate m v) =
      initSymbols.set v ⟨v, m, 0, 0⟩ := by
  have hstep : ∀ (fuel k c : Nat), m - k ≤ fuel →
      HistogramLoop (List.replicate m v) fuel k
        (initSymbols.set v ⟨v, c, 0, 0⟩) =
      initSymbols.set v ⟨v, c + (m - k), 0, 0⟩ := by
    intro fuel
    induction fuel with
    | zero =>
      intro k c hf
      simp only [HistogramLoop, List.length_replicate]
      rw [if_neg (by omega), show m - k = 0 from by omega]
      rfl
    | succ fuel ih =>
      intro k c hf
      simp only [HistogramLoop, List.length_replicate]
      by_cases hk : k < m
      · rw [if_pos hk]
        have hbyte : byteAt (List.replicate m v) k = v := by
          unfold byteAt
          rw [List.getD_eq_getElem _ _ (by simpa using hk)]
          simp
        rw [hbyte, if_neg hv]
        have hinc : incCount (initSymbols.set v ⟨v, c, 0, 0⟩) v =
            initSymbols.set v ⟨v, c + 1, 0, 0⟩ := by
          unfold incCount
          have hvlen : v < (initSymbols.set v ⟨v, c, 0, 0⟩).length := by
            rw [List.length_set, initSymbols_length]
            unfold kNumSymbols
            omega
          rw [List.getD_eq_getElem _ _ hvlen, List.getElem_set_self hvlen]
          rw [List.set_set]
        rw [hinc, ih (k + 1) (c + 1) (by omega),
          show c + 1 + (m - (k + 1)) = c + (m - k) from by omega]
      · rw [if_neg hk, show m - k = 0 from by omega]
        rfl
  have hinit : initSymbols.set v ⟨v, 0, 0, 0⟩ = initSymbols := by
    apply List.ext_getElem
    · rw [List.length_set]
    · intro i h1 h2
      by_cases hiv : i = v
      · subst hiv
        rw [List.getElem_set_self
          (by rw [initSymbols_length] at h2; rw [List.length_set, initSymbols_length]; exact h2)]
        have := initSymbols_getD i (by rw [initSymbols_length] at h2; exact h2)
        rw [List.getD_eq_getElem _ _ h2] at this
        rw [this]
      · rw [List.getElem_set_ne (by omega)]
  unfold Histogram
  rw [← hinit, hstep (List.replicate m v).length 0 0
    (by rw [List.length_replicate]; omega)]
  rw [show 0 + (m - 0) = m from by omega, List.set_set]
/-- A uniform non-zero block uses exactly one code. -/
theorem OnlySingleCode_uniform (m v : Nat) (hm : 1 ≤ m) (hv : v ≠ 0)
    (hv2 : v < 256) :
    OnlySingleCode (Histogram (List.replicate m v)) = true := by
  rw [Histogram_replicate m v hv hv2]
  have hgetD : ∀ j, j < kNumSymbols →
      (initSymbols.set v ⟨v, m, 0, 0⟩).getD j default =
        if j = v then ⟨v, m, 0, 0⟩ else ⟨j, 0, 0, 0⟩ := by
    intro j hj
    have hjlen : j < (initSymbols.set v ⟨v, m, 0, 0⟩).length := by
      rw [List.length_set, initSymbols_length]; exact hj
    rw [List.getD_eq_getElem _ _ hjlen]
    by_cases hjv : j = v
    · subst hjv
      rw [if_pos rfl, List.getElem_set_self hjlen]
    · rw [if_neg hjv, List.getElem_set_ne (by omega)]
      have := initSymbols_getD j hj
      rw [List.getD_eq_getElem _ _ (by rw [initSymbols_length]; exact hj)] at this
      exact this
  have phaseA : ∀ fuel k u h n, v < k →
      OnlySingleCodeLoop (initSymbols.set v ⟨v, m, 0, 0⟩) fuel k u h n = u := by
    intro fuel
    induction fuel with
    | zero =>
      intro k u h n hvk
      simp only [OnlySingleCodeLoop]
      split
      · rfl
      · rfl
    | succ fuel ih =>
      intro k u h n hvk
      simp only [OnlySingleCodeLoop]
      split
      · rename_i hk
        rw [hgetD k hk, if_neg (show ¬(k = v) from by omega)]
        dsimp only
        rw [if_neg (show ¬((0 : Nat) < 0) from by omega)]
        exact ih (k + 1) u h n (by omega)
      · rfl
  have phaseB : ∀ fuel k, k ≤ v → v - k < fuel →
      OnlySingleCodeLoop (initSymbols.set v ⟨v, m, 0, 0⟩) fuel k 0 0 0 = 1 := by
    intro fuel
    induction fuel with
    | zero => intro k hk hf; omega
    | succ fuel ih =>
      intro k hk hf
      simp only [OnlySingleCodeLoop]
      rw [if_pos (by unfold kNumSymbols; omega)]
      by_cases hkv : k = v
      · subst hkv
        rw [hgetD k (by unfold kNumSymbols; omega), if_pos rfl]
        dsimp only
        have hnz : ¬(k = 0 ∨ 256 ≤ k) := by omega
        rw [if_pos (show 0 < m from by omega), if_neg hnz, if_neg hnz]
        rw [if_neg (show ¬(1 < 0 + 1 + 0) from by omega)]
        exact phaseA fuel (k + 1) (0 + 1 + 0) 0 (0 + 1) (by omega)
      · rw [hgetD k (by unfold kNumSymbols; omega), if_neg hkv]
        dsimp only
        rw [if_neg (show ¬((0 : Nat) < 0) from by omega)]
        exact ih (k + 1) (by omega) (by omega)
  unfold OnlySingleCode
  rw [phaseB kNumSymbols 0 (by omega) (by unfold kNumSymbols; omega)]
  rfl
/-- EncodeFill on a clean aligned stream: exact cursor advance and the fill
byte landing at offset `pos + 7`. -/
theorem EncodeFill_exact (inl buf : List Nat) (s : WriteStream)
    (hbp : s.bit_pos = 0) (hc : s.bit_cache = 0)
    (hb0 : byteAt inl 0 < 256)
    (hroom : s.pos + HZR_BLOCK_HEADER_SIZE + 1 ≤ s.endPos)
    (hblen : s.endPos ≤ buf.length) :
    ∃ b' s', EncodeFill inl buf s =
        some (b', s', HZR_BLOCK_HEADER_SIZE + 1) ∧
      s'.pos = s.pos + 8 ∧ s'.bit_pos = 0 ∧ s'.bit_cache = 0 ∧
      s'.endPos = s.endPos ∧ s'.write_failed = s.write_failed ∧
      b'.length = buf.length ∧ byteAt b' (s.pos + 7) = byteAt inl 0 ∧
      (∀ i, i < s.pos → byteAt b' i = byteAt buf i) := by
  have hbyte : s.bytePtr = s.pos := by
    unfold WriteStream.bytePtr
    rw [hbp]
    simp [Nat.shiftRight_eq_div_pow]
  unfold HZR_BLOCK_HEADER_SIZE at hroom ⊢
  unfold EncodeFill
  rw [if_neg (by rw [hbyte]; unfold HZR_BLOCK_HEADER_SIZE; omega)]
  rcases e1 : WriteBits buf s 0 16 with ⟨b1, t1⟩
  have p1 := WriteBits_aligned buf s 0 2 hbp hc (by omega) (by omega)
    (by omega) (by omega) hblen
  simp only [show (8 : Nat) * 2 = 16 from rfl, e1] at p1
  obtain ⟨p1s, p1l, p1x⟩ := p1
  have q1p : t1.pos = s.pos + 2 := by rw [p1s]
  have q1b : t1.bit_pos = 0 := by rw [p1s]; exact hbp
  have q1c : t1.bit_cache = 0 := by rw [p1s]
  have q1e : t1.endPos = s.endPos := by rw [p1s]
  have q1w : t1.write_failed = s.write_failed := by rw [p1s]
  dsimp only
  rcases e2 : WriteBits b1 t1 (_hzr_crc32 (inl.take 1)) 32 with ⟨b2, t2⟩
  have p2 := WriteBits_aligned b1 t1 (_hzr_crc32 (inl.take 1)) 4 q1b q1c
    (by omega) (by omega) (by exact _hzr_crc32_lt _) (by omega) (by omega)
  simp only [show (8 : Nat) * 4 = 32 from rfl, e2] at p2
  obtain ⟨p2s, p2l, p2x⟩ := p2
  have q2p : t2.pos = t1.pos + 4 := by rw [p2s]
  have q2b : t2.bit_pos = 0 := by rw [p2s]; exact q1b
  have q2c : t2.bit_cache = 0 := by rw [p2s]
  have q2e : t2.endPos = t1.endPos := by rw [p2s]
  have q2w : t2.write_failed = t1.write_failed := by rw [p2s]
  dsimp only
  rcases e3 : WriteBits b2 t2 HZR_ENCODING_FILL 8 with ⟨b3, t3⟩
  have p3 := WriteBits_aligned b2 t2 HZR_ENCODING_FILL 1 q2b q2c
    (by omega) (by omega) (by unfold HZR_ENCODING_FILL; omega)
    (by omega) (by omega)
  simp only [show (8 : Nat) * 1 = 8 from rfl, e3] at p3
  obtain ⟨p3s, p3l, p3x⟩ := p3
  have q3p : t3.pos = t2.pos + 1 := by rw [p3s]
  have q3b : t3.bit_pos = 0 := by rw [p3s]; exact q2b
  have q3c : t3.bit_cache = 0 := by rw [p3s]
  have q3e : t3.endPos = t2.endPos := by rw [p3s]
  have q3w : t3.write_failed = t2.write_failed := by rw [p3s]
  dsimp only
  rcases e4 : WriteBits b3 t3 (byteAt inl 0) 8 with ⟨b4, t4⟩
  have p4 := WriteBits_aligned b3 t3 (byteAt inl 0) 1 q3b q3c
    (by omega) (by omega) (by omega) (by omega) (by omega)
  simp only [show (8 : Nat) * 1 = 8 from rfl, e4] at p4
  obtain ⟨p4s, p4l, p4x⟩ := p4
  have q4p : t4.pos = t3.pos + 1 := by rw [p4s]
  have q4b : t4.bit_pos = 0 := by rw [p4s]; exact q3b
  have q4c : t4.bit_cache = 0 := by rw [p4s]
  have q4e : t4.endPos = t3.endPos := by rw [p4s]
  have q4w : t4.write_failed = t3.write_failed := by rw [p4s]
  dsimp only
  rw [ForceFlush_bp0 b4 t4 q4b]
  dsimp only
  refine ⟨b4, t4, by unfold HZR_BLOCK_HEADER_SIZE; rfl, by omega, q4b, q4c,
    by omega, by rw [q4w, q3w, q2w, q1w], by omega, ?_, ?_⟩
  · rw [p4x (s.pos + 7), if_pos (by omega),
      show 8 * (s.pos + 7 - t3.pos) = 0 from by omega]
    simp [Nat.mod_eq_of_lt hb0]
  · intro i hi
    rw [p4x i, if_neg (by omega), p3x i, if_neg (by omega),
      p2x i, if_neg (by omega), p1x i, if_neg (by omega)]
/-- EncodeSingleBlock on a single-code block: takes the FILL path and emits
exactly 8 bytes, with the fill byte at offset `pos + 7`. -/
theorem EncodeSingleBlock_fill (buf : List Nat) (s : WriteStream)
    (inl : List Nat)
    (hOSC : OnlySingleCode (Histogram inl) = true)
    (hbp : s.bit_pos = 0) (hc : s.bit_cache = 0)
    (hb0 : byteAt inl 0 < 256)
    (hroom : s.pos + HZR_BLOCK_HEADER_SIZE + 1 ≤ s.endPos)
    (hblen : s.endPos ≤ buf.length) :
    ∃ b' s', EncodeSingleBlock buf s inl =
        some (b', s', HZR_BLOCK_HEADER_SIZE + 1) ∧
      s'.pos = s.pos + 8 ∧ s'.bit_pos = 0 ∧ s'.bit_cache = 0 ∧
      s'.endPos = s.endPos ∧ s'.write_failed = s.write_failed ∧
      b'.length = buf.length ∧ byteAt b' (s.pos + 7) = byteAt inl 0 ∧
      (∀ i, i < s.pos → byteAt b' i = byteAt buf i) := by
  have hbyte : s.bytePtr = s.pos := by
    unfold WriteStream.bytePtr
    rw [hbp]
    simp [Nat.shiftRight_eq_div_pow]
  unfold HZR_BLOCK_HEADER_SIZE at hroom
  unfold EncodeSingleBlock
  unfold HZR_BLOCK_HEADER_SIZE
  set B : WriteStream := { s with endPos := min (s.bytePtr + 7 + inl.length) s.endPos } with hB
  have hBp : B.pos = s.pos := by rw [hB]
  have hBbp : B.bit_pos = 0 := by rw [hB]; exact hbp
  have hBe : B.endPos = (s.pos + 7 + inl.length) ⊓ s.endPos := by
    rw [hB, hbyte]
  have hBbyte : B.bytePtr = s.pos := by
    unfold WriteStream.bytePtr
    rw [hBp, hBbp]
    simp [Nat.shiftRight_eq_div_pow]
  rw [if_neg (by rw [hBbyte, hBe]; omega)]
  rcases e1 : WriteBits buf B 0 16 with ⟨b1, t1⟩
  have p1 := WriteBits_pos8 buf B 0 2 hBbp (by omega) (by omega)
    (by rw [hBp, hBe]; omega) (by rw [hBe]; omega)
  simp only [show (8 : Nat) * 2 = 16 from rfl, e1] at p1
  obtain ⟨⟨q1p, q1b, q1e, q1w⟩, q1l, q1x⟩ := p1
  dsimp only
  rcases e2 : WriteBits b1 t1 0 32 with ⟨b2, t2⟩
  have p2 := WriteBits_pos8 b1 t1 0 4 q1b (by omega) (by omega)
    (by rw [q1p, q1e, hbyte]; omega) (by rw [q1e, q1l, hbyte]; omega)
  simp only [show (8 : Nat) * 4 = 32 from rfl, e2] at p2
  obtain ⟨⟨q2p, q2b, q2e, q2w⟩, q2l, q2x⟩ := p2
  dsimp only
  rcases e3 : WriteBits b2 t2 0 8 with ⟨b3, t3⟩
  have p3 := WriteBits_pos8 b2 t2 0 1 q2b (by omega) (by omega)
    (by rw [q2p, q2e, q1p, q1e, hbyte]; omega)
    (by rw [q2e, q2l, q1e, q1l, hbyte]; omega)
  simp only [show (8 : Nat) * 1 = 8 from rfl, e3] at p3
  obtain ⟨⟨q3p, q3b, q3e, q3w⟩, q3l, q3x⟩ := p3
  dsimp only
  rw [if_pos hOSC]
  obtain ⟨b', s', hEF, rp, rb, rc, re, rw', rl, rfill, rx⟩ :=
    EncodeFill_exact inl b3 s hbp hc hb0
      (by unfold HZR_BLOCK_HEADER_SIZE; omega) (by omega)
  refine ⟨b', s', hEF, rp, rb, rc, re, rw', by omega, rfill, ?_⟩
  intro i hi
  rw [rx i hi, q3x i (Or.inl (by omega)), q2x i (Or.inl (by omega)),
    q1x i (Or.inl (by omega))]
/-- The block loop over a uniform non-zero input: every block is a FILL
block of 8 encoded bytes, and the first fill byte lands at `pos + 7`. -/
theorem EncodeBlocksAux_fill (N v : Nat) (hv : v ≠ 0) (hv2 : v < 256) :
    ∀ (fuel k total : Nat) (buf : List Nat) (s : WriteStream),
    s.bit_pos = 0 → s.bit_cache = 0 →
    N - k ≤ fuel →
    s.pos + 8 * ((N - k + 65535) / 65536) ≤ s.endPos →
    s.endPos ≤ buf.length →
    ∃ b' s', EncodeBlocksAux (List.replicate N v) fuel k buf s total =
        some (b', s', total + 8 * ((N - k + 65535) / 65536)) ∧
      s'.pos = s.pos + 8 * ((N - k + 65535) / 65536) ∧
      s'.bit_pos = 0 ∧ s'.bit_cache = 0 ∧ s'.endPos = s.endPos ∧
      s'.write_failed = s.write_failed ∧
      b'.length = buf.length ∧
      (∀ i, i < s.pos → byteAt b' i = byteAt buf i) ∧
      (k < N → byteAt b' (s.pos + 7) = v) := by
  intro fuel
  induction fuel with
  | zero =>
    intro k total buf s hbp hc hfuel hroom hblen
    simp only [EncodeBlocksAux, List.length_replicate]
    rw [if_neg (by omega)]
    refine ⟨buf, s, ?_, by omega, hbp, hc, rfl, rfl, rfl, fun _ _ => rfl,
      by omega⟩
    rw [show total + 8 * ((N - k + 65535) / 65536) = total from by omega]
  | succ fuel ih =>
    intro k total buf s hbp hc hfuel hroom hblen
    simp only [EncodeBlocksAux, List.length_replicate]
    by_cases hk : k < N
    · rw [if_pos hk]
      have hceil : 1 ≤ (N - k + 65535) / 65536 := by omega
      have hslice : ((List.replicate N v).drop k).take
          (min (N - k) HZR_MAX_BLOCK_SIZE) =
          List.replicate (min (N - k) HZR_MAX_BLOCK_SIZE) v := by
        rw [List.drop_replicate, List.take_replicate]
        unfold HZR_MAX_BLOCK_SIZE
        rw [show min (min (N - k) 65536) (N - k) = min (N - k) 65536 from by
          omega]
      have hbsz1 : 1 ≤ min (N - k) HZR_MAX_BLOCK_SIZE := by
        unfold HZR_MAX_BLOCK_SIZE
        omega
      obtain ⟨b1, s1, hE, rp, rb, rc, re, rw', rl, rfill, rx⟩ :=
        EncodeSingleBlock_fill buf s
          (List.replicate (min (N - k) HZR_MAX_BLOCK_SIZE) v)
          (OnlySingleCode_uniform _ v hbsz1 hv hv2) hbp hc
          (by unfold byteAt
              rw [List.getD_eq_getElem _ _
                (by rw [List.length_replicate]; omega)]
              simpa using hv2)
          (by unfold HZR_BLOCK_HEADER_SIZE; omega) hblen
      rw [hslice, hE]
      dsimp only
      obtain ⟨b2, s2, hrec, sp, sb, sc, se, sw, sl, sx, sfill⟩ :=
        ih (k + min (N - k) HZR_MAX_BLOCK_SIZE)
          (total + (HZR_BLOCK_HEADER_SIZE + 1)) b1 s1 rb rc
          (by unfold HZR_MAX_BLOCK_SIZE; omega)
          (by rw [rp, re]; unfold HZR_MAX_BLOCK_SIZE; omega)
          (by rw [re]; omega)
      refine ⟨b2, s2, ?_, ?_, sb, sc, by rw [se, re],
        by rw [sw, rw'], by rw [sl, rl], ?_, ?_⟩
      · rw [hrec, show total + (HZR_BLOCK_HEADER_SIZE + 1) +
            8 * ((N - (k + min (N - k) HZR_MAX_BLOCK_SIZE) + 65535) / 65536) =
            total + 8 * ((N - k + 65535) / 65536) from by
          unfold HZR_BLOCK_HEADER_SIZE HZR_MAX_BLOCK_SIZE; omega]
      · rw [sp, rp]
        unfold HZR_MAX_BLOCK_SIZE
        omega
      · intro i hi
        rw [sx i (by omega), rx i hi]
      · intro _
        rw [sx (s.pos + 7) (by omega), rfill]
        unfold byteAt
        rw [List.getD_eq_getElem _ _ (by rw [List.length_replicate]; omega)]
        simp
    · rw [if_neg hk]
      refine ⟨buf, s, ?_, by omega, hbp, hc, rfl, rfl, rfl, fun _ _ => rfl,
        by omega⟩
      rw [show total + 8 * ((N - k + 65535) / 65536) = total from by omega]
/-- C7: a uniform non-zero input of length `N` encodes as all-FILL blocks:
the reported size is exactly `4 + ceil(N/65536) * 8`, and the first block
body is the single fill byte `v` at offset 11. -/
theorem C7_uniform_fill (N v : Nat) (out : List Nat)
    (hN : 1 ≤ N) (hv : v ≠ 0) (hv2 : v < 256)
    (hcap : 4 + 8 * ((N + 65535) / 65536) ≤ out.length) :
    ∃ b, hzr_encode (List.replicate N v) out =
        some (b, 4 + 8 * ((N + 65535) / 65536)) ∧
      byteAt b 11 = v := by
  unfold hzr_encode
  rw [if_neg (by unfold HZR_HEADER_SIZE; omega)]
  dsimp only
  rcases eW : WriteBits out (InitWriteStream out.length)
      ((List.replicate N v).length % 2 ^ 32) 32 with ⟨b1, t1⟩
  have pa := WriteBits_aligned out (InitWriteStream out.length)
    ((List.replicate N v).length % 2 ^ 32) 4 rfl rfl (by omega) (by omega)
    (by omega) (by show 0 + 4 ≤ out.length; omega) (le_refl _)
  simp only [show (8 : Nat) * 4 = 32 from rfl] at pa
  rw [eW] at pa
  simp only [InitWriteStream] at pa
  obtain ⟨pa1, pa2, pa3⟩ := pa
  have h1p : t1.pos = 4 := by rw [pa1]
  have h1b : t1.bit_pos = 0 := by rw [pa1]
  have h1c : t1.bit_cache = 0 := by rw [pa1]
  have h1e : t1.endPos = out.length := by rw [pa1]
  rw [ForceFlush_bp0 b1 t1 h1b]
  dsimp only
  unfold EncodeBlocks
  obtain ⟨b2, s2, hrec, sp, sb, sc, se, sw, sl, sx, sfill⟩ :=
    EncodeBlocksAux_fill N v hv hv2 (List.replicate N v).length 0 0 b1 t1
      h1b h1c (by rw [List.length_replicate]; omega)
      (by rw [h1p, h1e]; omega) (by rw [h1e, pa2])
  rw [hrec]
  dsimp only
  refine ⟨b2, ?_, ?_⟩
  · rw [show HZR_HEADER_SIZE + (0 + 8 * ((N - 0 + 65535) / 65536)) =
      4 + 8 * ((N + 65535) / 65536) from by unfold HZR_HEADER_SIZE; omega]
  · have := sfill (by omega)
    rw [h1p] at this
    simpa using this

/-- Witness: 65536 bytes of value 1 encode to exactly 12 bytes with the
fill byte `0x01` at offset 11. -/
theorem C7_uniform_fill_witness :
    ∃ b, hzr_encode (List.replicate 65536 1) (List.replicate 12 0) =
        some (b, 4 + 8 * ((65536 + 65535) / 65536)) ∧
      byteAt b 11 = 1 :=
  C7_uniform_fill 65536 1 (List.replicate 12 0) (by decide) (by decide)
    (by decide) (by decide)

end Hzr
